import Mathlib

/-!
# Verification of the rush packet-processing engine core (src/engine.rs)

This file is a shallow embedding of `src/engine.rs` into Lean 4 and a
collection of theorems settling the specification claims about it.

Modelling conventions:

* Rust `HashMap` / `HashSet` values are embedded as association lists
  (`List (K × V)`) / lists without duplicates.  The list order stands for
  the (unspecified) iteration order of the hash container; new entries are
  appended at the end.  `HashMap::insert` is insert-or-replace-in-place,
  `HashMap::remove` removes the (unique) entry.
* Link registry keys are the canonical link-spec strings
  `"FROM.OUT -> TO.IN"`.  `config.rs`'s `parse_link` is outside `src/`;
  since per the spec parsing and formatting are inverse bijections on
  well-formed specs, we embed a key directly as its parsed four-tuple
  `LinkSpec`.
* `Box<dyn App>` instances carry no engine-visible state beyond their
  capability booleans (which are fixed by the `AppConfig` that created
  them); an app instance is modelled by its capabilities plus an
  instantiation counter `instId` that tracks object identity (so that
  "the instance was retained" / "restarted fresh" is expressible).
* Side effects of app callbacks (`pull`, `push`) on packets are external
  to the engine (the spec treats apps as external collaborators); the
  engine-visible part of `breathe` is the table lookups and the `breaths`
  counter.  The `stop()` hook invocation is recorded as an event.
* Panics (`unwrap`, `assert!`) are modelled by `Option`: `none` is a
  panic/abort.
* `u64` counters are modelled by `Nat` (they only ever increase by small
  amounts; overflow is unreachable in any modelled scenario and the
  claims do not concern wrap-around).
-/

set_option maxRecDepth 20000

namespace Rush

/-- Association-list lookup, modelling `HashMap::get`. -/
def lookupA {K V : Type} [DecidableEq K] (k : K) : List (K × V) → Option V
  | [] => none
  | p :: m => if p.1 = k then some p.2 else lookupA k m

/-- Association-list insert-or-replace, modelling `HashMap::insert`
(replaces in place; appends a fresh key at the end). -/
def insertA {K V : Type} [DecidableEq K] (k : K) (v : V) : List (K × V) → List (K × V)
  | [] => [(k, v)]
  | p :: m => if p.1 = k then (k, v) :: m else p :: insertA k v m

/-- Association-list removal, modelling `HashMap::remove`. -/
def removeA {K V : Type} [DecidableEq K] (k : K) : List (K × V) → List (K × V)
  | [] => []
  | p :: m => if p.1 = k then m else p :: removeA k m

/-- The key list of an association list (`HashMap::keys`). -/
def keysA {K V : Type} (m : List (K × V)) : List K := m.map Prod.fst

/-- Fold in the `Option` monad: a `none` step (a panic) aborts the fold. -/
def foldOpt {σ α : Type} (f : σ → α → Option σ) : σ → List α → Option σ
  | s, [] => some s
  | s, a :: l =>
    match f s a with
    | none => none
    | some s' => foldOpt f s' l

/-- A parsed link spec `FROM.OUT -> TO.IN` (the four-tuple produced by
`config::parse_link`; used directly as the registry key, see header). -/
structure LinkSpec where
  from_ : String
  output : String
  to_ : String
  input : String
deriving DecidableEq, Repr

/-- A link's counters (`link::Link`; the engine reads `txpackets` and
`txdrop` for reporting). -/
structure Link where
  txpackets : Nat
  txdrop : Nat
  rxpackets : Nat
deriving DecidableEq, Repr

/-- `link::new()`: a fresh link with zeroed counters. -/
def Link.new : Link := ⟨0, 0, 0⟩

/-- An app configuration (`Box<dyn AppArg>`): its `identity()` fingerprint
string plus the capabilities the instance built by `new()` advertises. -/
structure AppConf where
  identity : String
  has_pull : Bool
  has_push : Bool
  has_stop : Bool
deriving DecidableEq, Repr

/-- `engine::AppState`: the instantiated app (modelled by `instId`, its
object identity), the retained configuration, and the slot tables. -/
structure AppState where
  instId : Nat
  conf : AppConf
  input : List (String × LinkSpec)
  output : List (String × LinkSpec)
deriving DecidableEq, Repr

/-- `engine::EngineState` (plus `nextId`, the instantiation counter that
models allocation of fresh app instances). -/
structure EngineState where
  link_table : List (LinkSpec × Link)
  app_table : List (String × AppState)
  inhale : List String
  exhale : List String
  nextId : Nat
deriving DecidableEq, Repr

/-- `config::Config`: the desired app network. -/
structure Config where
  apps : List (String × AppConf)
  links : List LinkSpec
deriving DecidableEq, Repr

/-- `engine::EngineStats`. -/
structure EngineStats where
  breaths : Nat
  frees : Nat
  freebits : Nat
  freebytes : Nat
deriving DecidableEq, Repr

/-- The mutable `Engine` fields used by the breathe loop. -/
structure Engine where
  stats : EngineStats
  state : EngineState
  lastfrees : Nat
  sleep : Nat
deriving DecidableEq, Repr

/-- `engine::MAXSLEEP`. -/
def MAXSLEEP : Nat := 100

/-- `engine::loss_rate` (engine.rs:612-617). -/
def loss_rate (drop sent : Nat) : Nat :=
  if sent = 0 then 0 else drop * 100 / (drop + sent)

/-- `Engine::pace_breathing` (engine.rs:158-168).  Returns the new engine
and `some µs` when the thread slept for `µs` microseconds, `none` when it
did not sleep. -/
def pace_breathing (e : Engine) : Engine × Option Nat :=
  if e.lastfrees = e.stats.frees then
    let s := min (e.sleep + 1) MAXSLEEP
    ({ e with sleep := s, lastfrees := e.stats.frees }, some s)
  else
    ({ e with sleep := e.sleep / 2, lastfrees := e.stats.frees }, none)

/-- `Engine::breathe` (engine.rs:193-204): look up every scheduled app
(`unwrap` panics, i.e. `none`, when a name is missing), run the hooks
(packet effects are external to the engine), and count the breath. -/
def breathe (e : Engine) : Option Engine :=
  if (e.state.inhale.all fun n => (lookupA n e.state.app_table).isSome)
      && (e.state.exhale.all fun n => (lookupA n e.state.app_table).isSome) then
    some { e with stats := { e.stats with breaths := e.stats.breaths + 1 } }
  else
    none

/-- `engine::Options` (the `done` predicate is consulted once per loop
iteration; its argument counts the checks). -/
structure Options where
  done : Option (Nat → Bool)
  duration : Option Nat
  no_report : Bool
  report_load : Bool
  report_links : Bool
  report_apps : Bool

/-- `Engine::timeout` (engine.rs:172-175): the predicate built at time
`clk 0` that is true once the clock has passed `clk 0 + duration`;
`clk k` is the monotonic time observed at the k-th check. -/
def timeout (clk : Nat → Nat) (duration : Nat) : Nat → Bool :=
  fun k => decide (clk 0 + duration < clk k)

/-- The `while` loop of `Engine::main` (engine.rs:87-93), fuel-indexed:
`none` models a run that has not returned within `fuel` iterations (or
panicked). -/
def mainLoop (done : Option (Nat → Bool)) : Nat → Nat → Engine → Option Engine
  | 0, _, _ => none
  | Nat.succ fuel, k, e =>
    match done with
    | some d =>
      if d k then some e
      else
        match breathe (pace_breathing e).1 with
        | none => none
        | some e2 => mainLoop (some d) fuel (k + 1) e2
    | none =>
      match breathe (pace_breathing e).1 with
      | none => none
      | some e2 => mainLoop none fuel (k + 1) e2

/-- `Engine::main` (engine.rs:70-107): the `assert!` that `done` and
`duration` are mutually exclusive, the duration-to-timeout translation,
the unconditional first breath, then the loop.  Reporting only prints. -/
def main (clk : Nat → Nat) (e : Engine) (opts : Options) (fuel : Nat) : Option Engine :=
  match opts.duration, opts.done with
  | some _, some _ => none
  | some d, none =>
    match breathe e with
    | none => none
    | some e1 => mainLoop (some (timeout clk d)) fuel 1 e1
  | none, dn =>
    match breathe e with
    | none => none
    | some e1 => mainLoop dn fuel 1 e1

/-! ## The order planner (`compute_breathe_order`, engine.rs:410-488) -/

/-- Lexicographic less-or-equal on character lists (executable; Rust's
`String` ordering used by `Vec::sort`). -/
def strLeB : List Char → List Char → Bool
  | [], _ => true
  | _ :: _, [] => false
  | x :: xs, y :: ys =>
    if x.toNat < y.toNat then true
    else if y.toNat < x.toNat then false
    else strLeB xs ys

/-- Lexicographic less-or-equal on strings (the order of `Vec::sort`
on `Vec<String>`). -/
def sle (a b : String) : Bool := strLeB a.data b.data

/-- The sorting relation used by the engine's name sorts. -/
def sleR (a b : String) : Prop := sle a b = true

instance sleR.decidable : DecidableRel sleR := fun a b => by
  unfold sleR
  infer_instance

theorem strLeB_total (a b : List Char) : strLeB a b = true ∨ strLeB b a = true := by
  induction a generalizing b with
  | nil => left; rfl
  | cons x xs ih =>
    cases b with
    | nil => right; rfl
    | cons y ys =>
      unfold strLeB
      rcases Nat.lt_trichotomy x.toNat y.toNat with h | h | h
      · left
        simp [h]
      · have hxy : ¬ x.toNat < y.toNat := by omega
        have hyx : ¬ y.toNat < x.toNat := by omega
        simpa [hxy, hyx] using ih ys
      · right
        simp [h]

theorem strLeB_trans {a b c : List Char} (hab : strLeB a b = true)
    (hbc : strLeB b c = true) : strLeB a c = true := by
  induction a generalizing b c with
  | nil => rfl
  | cons x xs ih =>
    cases b with
    | nil => simp [strLeB] at hab
    | cons y ys =>
      cases c with
      | nil => simp [strLeB] at hbc
      | cons z zs =>
        unfold strLeB at hab hbc ⊢
        by_cases h1 : x.toNat < y.toNat
        · by_cases h2 : y.toNat < z.toNat
          · simp [if_pos (by omega : x.toNat < z.toNat)]
          · by_cases h3 : z.toNat < y.toNat
            · simp [if_neg h2, if_pos h3] at hbc
            · simp [if_pos (by omega : x.toNat < z.toNat)]
        · by_cases h1c : y.toNat < x.toNat
          · simp [if_neg h1, if_pos h1c] at hab
          · by_cases h2 : y.toNat < z.toNat
            · simp [if_pos (by omega : x.toNat < z.toNat)]
            · by_cases h3 : z.toNat < y.toNat
              · simp [if_neg h2, if_pos h3] at hbc
              · have h4 : ¬ x.toNat < z.toNat := by omega
                have h5 : ¬ z.toNat < x.toNat := by omega
                simp only [if_neg h1, if_neg h1c] at hab
                simp only [if_neg h2, if_neg h3] at hbc
                simp only [if_neg h4, if_neg h5]
                exact ih hab hbc

instance : IsTotal String sleR := ⟨fun a b => strLeB_total a.data b.data⟩

instance : IsTrans String sleR := ⟨fun _ _ _ => strLeB_trans⟩

/-- One step of building the successor map:
`successors.entry(from).or_insert_with(HashSet::new).insert(to)`. -/
def addSucc (m : List (String × List String)) (f t : String) : List (String × List String) :=
  match lookupA f m with
  | none => m ++ [(f, [t])]
  | some ts => if t ∈ ts then m else insertA f (ts ++ [t]) m

/-- Build the successor map from the link-table keys (engine.rs:414-421). -/
def buildSuccessors (links : List LinkSpec) : List (String × List String) :=
  links.foldl (fun m sp => addSucc m sp.from_ sp.to_) []

/-- `self.inhale`: the name-sorted pull-capable apps (engine.rs:423-429). -/
def computeInhale (appT : List (String × AppState)) : List String :=
  List.insertionSort sleR
    ((appT.filter fun p => p.2.conf.has_pull).map Prod.fst)

/-- Inner step of collecting initial dependents (engine.rs:434-439):
look the successor up (`unwrap`), keep it when it pushes and is new. -/
def initialDepsStep (appT : List (String × AppState)) (acc : List String) (t : String) :
    Option (List String) :=
  match lookupA t appT with
  | none => none
  | some a => some (if a.conf.has_push ∧ t ∉ acc then acc ++ [t] else acc)

/-- Collect initial dependents of the inhalers (engine.rs:431-441). -/
def initialDeps (appT : List (String × AppState)) (succ : List (String × List String))
    (inh : List String) : Option (List String) :=
  foldOpt
    (fun acc name =>
      match lookupA name succ with
      | none => some acc
      | some ts => foldOpt (initialDepsStep appT) acc ts)
    [] inh

/-- Inner loop of the cycle-breaking pass (engine.rs:452-462) for one
dependent `nm` with successor set `ts`; the pair is `(selected, dependents)`. -/
def cycleInner (nm : String) (ts : List String) (p : List String × List String) :
    List String × List String :=
  ts.foldl
    (fun q t =>
      if t ∉ q.1 ∧ t ∈ q.2 ∧ q.2.length > 1 then
        ((if nm ∈ q.1 then q.1 else q.1 ++ [nm]), q.2.filter fun x => x ≠ t)
      else q)
    p

/-- The cycle-breaking pass over a snapshot of the dependents
(engine.rs:450-463). -/
def cyclePass (succ : List (String × List String)) (deps : List String) :
    List String × List String :=
  deps.foldl
    (fun p nm =>
      match lookupA nm succ with
      | none => p
      | some ts => cycleInner nm ts p)
    ([], deps)

/-- One step of collecting further dependents (engine.rs:470-482). -/
def collectStep (appT : List (String × AppState)) (exh : List String)
    (acc : List String) (t : String) : Option (List String) :=
  match lookupA t appT with
  | none => none
  | some a => some (if a.conf.has_push ∧ t ∉ exh ∧ t ∉ acc then acc ++ [t] else acc)

/-- Collect further dependents of the just-emitted batch (engine.rs:469-482). -/
def collectDeps (appT : List (String × AppState)) (succ : List (String × List String))
    (batch exh : List String) : Option (List String) :=
  foldOpt
    (fun acc nm =>
      match lookupA nm succ with
      | none => some acc
      | some ts => foldOpt (collectStep appT exh) acc ts)
    [] batch

/-- The `while !dependents.is_empty()` loop (engine.rs:447-487),
fuel-indexed; each round runs the cycle pass, sorts and emits the batch,
collects new dependents and resolves the emitted successors. -/
def exhaleRounds (appT : List (String × AppState)) :
    Nat → List (String × List String) → List String → List String → Option (List String)
  | 0, _, deps, exh => if deps = [] then some exh else none
  | Nat.succ fuel, succ, deps, exh =>
    if deps = [] then some exh
    else
      let p := cyclePass succ deps
      let batch := List.insertionSort sleR p.2
      let exh1 := exh ++ batch
      match collectDeps appT succ batch exh1 with
      | none => none
      | some deps2 =>
        exhaleRounds appT fuel (batch.foldl (fun m n => removeA n m) succ) deps2 exh1

/-- The planner on the two tables it reads; returns `(inhale, exhale)`.
(engine.rs:410-445: build the successor map, sort the inhalers, collect
the initial dependents, resolve the inhalers, then run the exhale loop.) -/
def computePair (lt : List (LinkSpec × Link)) (appT : List (String × AppState)) :
    Option (List String × List String) :=
  match initialDeps appT (buildSuccessors (lt.map Prod.fst)) (computeInhale appT) with
  | none => none
  | some deps0 =>
    match exhaleRounds appT (appT.length + 1)
        ((computeInhale appT).foldl (fun m n => removeA n m)
          (buildSuccessors (lt.map Prod.fst))) deps0 [] with
    | none => none
    | some exh => some (computeInhale appT, exh)

/-- `EngineState::compute_breathe_order` (engine.rs:410-488). -/
def compute_breathe_order (s : EngineState) : Option EngineState :=
  match computePair s.link_table s.app_table with
  | none => none
  | some p => some { s with inhale := p.1, exhale := p.2 }

/-! ## Reconfiguration (`configure`, engine.rs:237-269) -/

/-- `EngineState::unlink_apps` (engine.rs:346-359): drop the link from
the registry and unbind the two endpoint slots (`get_mut(..).unwrap()`
panics when an endpoint is missing). -/
def unlink_apps (s : EngineState) (sp : LinkSpec) : Option EngineState :=
  match lookupA sp.from_ s.app_table with
  | none => none
  | some afrom =>
    match lookupA sp.to_ (insertA sp.from_
        { afrom with output := removeA sp.output afrom.output } s.app_table) with
    | none => none
    | some ato =>
      some { s with
        link_table := removeA sp s.link_table,
        app_table := insertA sp.to_ { ato with input := removeA sp.input ato.input }
          (insertA sp.from_ { afrom with output := removeA sp.output afrom.output }
            s.app_table) }

/-- `EngineState::start_app` (engine.rs:362-373): instantiate `conf.new()`
(a fresh instance, modelled by the next instantiation counter) with empty
slot tables. -/
def start_app (s : EngineState) (name : String) (conf : AppConf) : EngineState :=
  { s with
    app_table := insertA name ⟨s.nextId, conf, [], []⟩ s.app_table,
    nextId := s.nextId + 1 }

/-- `EngineState::stop_app` (engine.rs:376-381): remove the app
(`unwrap`); the returned event `(name, hookInvoked)` records whether the
`stop()` hook ran (it runs exactly when the app advertises it). -/
def stop_app (s : EngineState) (name : String) : Option (EngineState × (String × Bool)) :=
  match lookupA name s.app_table with
  | none => none
  | some a =>
    some ({ s with app_table := removeA name s.app_table }, (name, a.conf.has_stop))

/-- `EngineState::link_apps` (engine.rs:384-400):
`link_table.entry(spec).or_insert_with(new_shared_link)`, then bind the
producer's output slot and the consumer's input slot to it. -/
def link_apps (s : EngineState) (sp : LinkSpec) : Option EngineState :=
  match lookupA sp.from_ s.app_table with
  | none => none
  | some afrom =>
    match lookupA sp.to_ (insertA sp.from_
        { afrom with output := insertA sp.output sp afrom.output } s.app_table) with
    | none => none
    | some ato =>
      some { s with
        link_table :=
          match lookupA sp s.link_table with
          | some _ => s.link_table
          | none => s.link_table ++ [(sp, Link.new)],
        app_table := insertA sp.to_ { ato with input := insertA sp.input sp ato.input }
          (insertA sp.from_ { afrom with output := insertA sp.output sp afrom.output }
            s.app_table) }

/-- One step of phase 1 of `configure` (engine.rs:239-243): a link kept
by the new config is left alone, a dead one is unlinked. -/
def removeDeadStep (c : Config) (s' : EngineState) (sp : LinkSpec) : Option EngineState :=
  if sp ∈ c.links then some s' else unlink_apps s' sp

/-- Phase 1 of `configure` (engine.rs:239-243): drop links that are going
away, iterating over a snapshot of the link-table keys. -/
def removeDeadLinks (s : EngineState) (c : Config) : Option EngineState :=
  foldOpt (removeDeadStep c) s (s.link_table.map Prod.fst)

/-- One step of phase 2 of `configure` (engine.rs:246-256) for app `name`:
keep it when the desired config names it with an equal identity, stop it
otherwise.  The accumulator carries the stop events. -/
def stopStep (c : Config) (p : EngineState × List (String × Bool)) (name : String) :
    Option (EngineState × List (String × Bool)) :=
  match lookupA name p.1.app_table with
  | none => none
  | some a =>
    match lookupA name c.apps with
    | some newC =>
      if a.conf.identity = newC.identity then some p
      else
        match stop_app p.1 name with
        | none => none
        | some q => some (q.1, p.2 ++ [q.2])
    | none =>
      match stop_app p.1 name with
      | none => none
      | some q => some (q.1, p.2 ++ [q.2])

/-- Phase 2 of `configure`: stop removed or changed apps, iterating over a
snapshot of the app names. -/
def stopPhase (s : EngineState) (c : Config) : Option (EngineState × List (String × Bool)) :=
  foldOpt (stopStep c) (s, []) (s.app_table.map Prod.fst)

/-- One step of phase 3 of `configure` (engine.rs:258-262): start the
app unless its name is already present. -/
def startStep (s' : EngineState) (p : String × AppConf) : EngineState :=
  if (lookupA p.1 s'.app_table).isSome then s' else start_app s' p.1 p.2

/-- Phase 3 of `configure` (engine.rs:258-262): start the apps of the
desired config that are not yet present. -/
def startPhase (s : EngineState) (c : Config) : EngineState :=
  c.apps.foldl startStep s

/-- Phase 4 of `configure` (engine.rs:264-266): rebuild all links. -/
def rebuildLinks (s : EngineState) (c : Config) : Option EngineState :=
  foldOpt link_apps s c.links

/-- `Engine::configure` (engine.rs:237-269).  Returns the new state and
the list of stop events `(name, stop-hook-invoked)` of this call. -/
def configure (s : EngineState) (c : Config) :
    Option (EngineState × List (String × Bool)) :=
  match removeDeadLinks s c with
  | none => none
  | some s1 =>
    match stopPhase s1 c with
    | none => none
    | some p =>
      match rebuildLinks (startPhase p.1 c) c with
      | none => none
      | some s4 =>
        match compute_breathe_order s4 with
        | none => none
        | some s5 => some (s5, p.2)

/-! ## Spec-side notions used to state the claims -/

/-- The directed edges `from → to` of a link set (the graph the planner
reads, spec §4.5). -/
def linkEdges (links : List LinkSpec) : List (String × String) :=
  links.map fun sp => (sp.from_, sp.to_)

/-- Index of the first occurrence of `x` (length when absent). -/
def firstIndexOf (x : String) : List String → Nat
  | [] => 0
  | y :: l => if y = x then 0 else firstIndexOf x l + 1

/-- `u` precedes `v` in the sequence `l` (both occur, `u` first). -/
def precedesIn (u v : String) (l : List String) : Prop :=
  u ∈ l ∧ v ∈ l ∧ firstIndexOf u l < firstIndexOf v l

/-! ## Concrete fixtures for the counterexamples -/

/-- A pull-only app configuration. -/
def pullConf : AppConf := ⟨"pull", true, false, false⟩

/-- A push-only app configuration with fingerprint `id`. -/
def pushConf (id : String) : AppConf := ⟨id, false, true, false⟩

/-- A pull-and-push app configuration (like the test's `PseudoIO` app). -/
def pullPushConf : AppConf := ⟨"pp", true, true, false⟩

/-- An engine state with the given registries (inhale/exhale not yet
computed), as left behind by `start_app`/`link_apps`. -/
def mkState (apps : List (String × AppConf)) (links : List LinkSpec) : EngineState :=
  ⟨links.map (fun sp => (sp, Link.new)),
   apps.map (fun p => (p.1, ⟨0, p.2, [], []⟩)), [], [], 0⟩

/-- Apps of the planner counterexample: one puller `i`, pushers `b c z`. -/
def cexApps : List (String × AppConf) :=
  [("i", pullConf), ("b", pushConf "b"), ("c", pushConf "c"), ("z", pushConf "z")]

/-- Acyclic link graph `i→b, i→c, i→z, z→b, b→c`, first enumeration
order of the hash containers. -/
def cexLinksA : List LinkSpec :=
  [⟨"i", "o1", "b", "in1"⟩, ⟨"i", "o2", "c", "in1"⟩, ⟨"i", "o3", "z", "in1"⟩,
   ⟨"z", "o", "b", "in2"⟩, ⟨"b", "o", "c", "in2"⟩]

/-- The same link set in a second enumeration order (`i`'s successor set
enumerated `z, b, c` instead of `b, c, z`). -/
def cexLinksB : List LinkSpec :=
  [⟨"i", "o3", "z", "in1"⟩, ⟨"i", "o1", "b", "in1"⟩, ⟨"i", "o2", "c", "in1"⟩,
   ⟨"z", "o", "b", "in2"⟩, ⟨"b", "o", "c", "in2"⟩]

/-- The registry state of the counterexample, first enumeration order. -/
def cexStateA : EngineState := mkState cexApps cexLinksA

/-- The registry state of the counterexample, second enumeration order. -/
def cexStateB : EngineState := mkState cexApps cexLinksB

/-- A topological numbering of the counterexample's link graph
(its existence shows the graph is acyclic): `i < z < b < c`. -/
def cexRank (v : String) : Nat :=
  if v = "i" then 0 else if v = "z" then 1 else if v = "b" then 2 else 3

/-- State for the C5 counterexample: `i1` pull-only feeding the
pull-and-push app `a`. -/
def cexState5 : EngineState :=
  mkState [("i1", pullConf), ("a", pullPushConf)] [⟨"i1", "o", "a", "in"⟩]


/-! ## Planner invariants (for C5 and C10) -/

/-- Generic invariant preservation for `foldOpt`. -/
theorem foldOpt_inv {σ α : Type} {P : σ → Prop} {f : σ → α → Option σ}
    (hf : ∀ s a s', P s → f s a = some s' → P s') :
    ∀ (l : List α) (s s' : σ), P s → foldOpt f s l = some s' → P s' := by
  intro l
  induction l with
  | nil =>
    intro s s' hP h
    cases h
    exact hP
  | cons a l ih =>
    intro s s' hP h
    unfold foldOpt at h
    cases hfa : f s a with
    | none => rw [hfa] at h; cases h
    | some s1 =>
      rw [hfa] at h
      exact ih s1 s' (hf s a s1 hP hfa) h

theorem nodup_append_single {α : Type} {l : List α} {t : α} (h : l.Nodup) (ht : t ∉ l) :
    (l ++ [t]).Nodup :=
  h.append (List.nodup_singleton t) (fun a ha hb => ht (by
    cases hb with
    | head => exact ha
    | tail _ hb => cases hb))

/-- A membership witness in an association list makes the lookup succeed. -/
theorem lookupA_isSome_of_mem {K V : Type} [DecidableEq K] {k : K} {v : V}
    {m : List (K × V)} (h : (k, v) ∈ m) : (lookupA k m).isSome := by
  induction m with
  | nil => cases h
  | cons p m ih =>
    unfold lookupA
    by_cases hk : p.1 = k
    · rw [if_pos hk]; rfl
    · rw [if_neg hk]
      cases h with
      | head => exact absurd rfl hk
      | tail _ h => exact ih h

/-- The cycle pass only filters the dependents list. -/
theorem cycleInner_sublist (nm : String) (ts : List String) :
    ∀ p : List String × List String, (cycleInner nm ts p).2.Sublist p.2 := by
  induction ts with
  | nil => intro p; exact List.Sublist.refl _
  | cons t ts ih =>
    intro p
    have he : cycleInner nm (t :: ts) p = cycleInner nm ts
        (if t ∉ p.1 ∧ t ∈ p.2 ∧ p.2.length > 1 then
          ((if nm ∈ p.1 then p.1 else p.1 ++ [nm]), p.2.filter fun x => x ≠ t)
        else p) := rfl
    rw [he]
    refine (ih _).trans ?_
    by_cases hc : t ∉ p.1 ∧ t ∈ p.2 ∧ p.2.length > 1
    · simp only [if_pos hc]
      exact List.filter_sublist _
    · simp only [if_neg hc]
      exact List.Sublist.refl _

theorem cyclePass_sublist (succ : List (String × List String)) (deps : List String) :
    (cyclePass succ deps).2.Sublist deps := by
  suffices h : ∀ (l : List String) (p : List String × List String),
      (l.foldl (fun p nm =>
        match lookupA nm succ with
        | none => p
        | some ts => cycleInner nm ts p) p).2.Sublist p.2 by
    exact h deps ([], deps)
  intro l
  induction l with
  | nil => intro p; exact List.Sublist.refl _
  | cons nm l ih =>
    intro p
    rw [List.foldl_cons]
    refine (ih _).trans ?_
    cases lookupA nm succ with
    | none => exact List.Sublist.refl _
    | some ts => exact cycleInner_sublist nm ts p

/-- Invariant carried by the dependent-collection folds: no duplicates,
nothing already exhaled, every name resolvable in the app table. -/
def DepsInv (appT : List (String × AppState)) (exh acc : List String) : Prop :=
  acc.Nodup ∧ (∀ n ∈ acc, n ∉ exh) ∧ (∀ n ∈ acc, (lookupA n appT).isSome)

theorem collectStep_inv (appT : List (String × AppState)) (exh : List String) :
    ∀ (acc : List String) (t : String) (acc' : List String),
      DepsInv appT exh acc → collectStep appT exh acc t = some acc' →
      DepsInv appT exh acc' := by
  intro acc t acc' hQ h
  unfold collectStep at h
  cases hl : lookupA t appT with
  | none => rw [hl] at h; cases h
  | some a =>
    rw [hl] at h
    cases h
    by_cases hc : a.conf.has_push ∧ t ∉ exh ∧ t ∉ acc
    · rw [if_pos hc]
      obtain ⟨hnd, hex, hsm⟩ := hQ
      refine ⟨nodup_append_single hnd hc.2.2, ?_, ?_⟩
      · intro n hn
        rcases List.mem_append.mp hn with hn | hn
        · exact hex n hn
        · rw [List.mem_singleton.mp hn]; exact hc.2.1
      · intro n hn
        rcases List.mem_append.mp hn with hn | hn
        · exact hsm n hn
        · rw [List.mem_singleton.mp hn, hl]; rfl
    · rw [if_neg hc]
      exact hQ

theorem collectDeps_inv {appT : List (String × AppState)}
    {succ : List (String × List String)} {batch exh deps2 : List String}
    (h : collectDeps appT succ batch exh = some deps2) :
    DepsInv appT exh deps2 := by
  refine foldOpt_inv ?_ batch [] deps2 ⟨List.nodup_nil, by simp, by simp⟩ h
  intro acc nm acc' hQ hstep
  cases hl : lookupA nm succ with
  | none =>
    rw [hl] at hstep
    cases hstep
    exact hQ
  | some ts =>
    rw [hl] at hstep
    exact foldOpt_inv (collectStep_inv appT exh) ts acc acc' hQ hstep

theorem initialDepsStep_inv (appT : List (String × AppState)) :
    ∀ (acc : List String) (t : String) (acc' : List String),
      DepsInv appT [] acc → initialDepsStep appT acc t = some acc' →
      DepsInv appT [] acc' := by
  intro acc t acc' hQ h
  unfold initialDepsStep at h
  cases hl : lookupA t appT with
  | none => rw [hl] at h; cases h
  | some a =>
    rw [hl] at h
    cases h
    by_cases hc : a.conf.has_push ∧ t ∉ acc
    · rw [if_pos hc]
      obtain ⟨hnd, _, hsm⟩ := hQ
      refine ⟨nodup_append_single hnd hc.2, by simp, ?_⟩
      intro n hn
      rcases List.mem_append.mp hn with hn | hn
      · exact hsm n hn
      · rw [List.mem_singleton.mp hn, hl]; rfl
    · rw [if_neg hc]
      exact hQ

theorem initialDeps_inv {appT : List (String × AppState)}
    {succ : List (String × List String)} {inh deps0 : List String}
    (h : initialDeps appT succ inh = some deps0) : DepsInv appT [] deps0 := by
  refine foldOpt_inv ?_ inh [] deps0 ⟨List.nodup_nil, by simp, by simp⟩ h
  intro acc nm acc' hQ hstep
  cases hl : lookupA nm succ with
  | none =>
    rw [hl] at hstep
    cases hstep
    exact hQ
  | some ts =>
    rw [hl] at hstep
    exact foldOpt_inv (initialDepsStep_inv appT) ts acc acc' hQ hstep

/-- Invariant of the exhale loop: starting from duplicate-free, resolvable
dependents disjoint from a duplicate-free resolvable exhale list, the
final exhale list is duplicate-free and resolvable. -/
theorem exhaleRounds_inv (appT : List (String × AppState)) :
    ∀ (fuel : Nat) (succ : List (String × List String)) (deps exh exh' : List String),
      deps.Nodup → (∀ n ∈ deps, n ∉ exh) → (∀ n ∈ deps, (lookupA n appT).isSome) →
      exh.Nodup → (∀ n ∈ exh, (lookupA n appT).isSome) →
      exhaleRounds appT fuel succ deps exh = some exh' →
      exh'.Nodup ∧ (∀ n ∈ exh', (lookupA n appT).isSome) := by
  intro fuel
  induction fuel with
  | zero =>
    intro succ deps exh exh' _ _ _ hend hesm h
    unfold exhaleRounds at h
    by_cases hd : deps = []
    · rw [if_pos hd] at h
      cases h
      exact ⟨hend, hesm⟩
    · rw [if_neg hd] at h
      cases h
  | succ fuel ih =>
    intro succ deps exh exh' hdnd hdex hdsm hend hesm h
    unfold exhaleRounds at h
    by_cases hd : deps = []
    · rw [if_pos hd] at h
      cases h
      exact ⟨hend, hesm⟩
    · rw [if_neg hd] at h
      simp only at h
      set deps1 := (cyclePass succ deps).2 with hdeps1
      set batch := List.insertionSort sleR deps1 with hbatch
      have hsub : deps1.Sublist deps := cyclePass_sublist succ deps
      have hperm : batch.Perm deps1 := List.perm_insertionSort sleR deps1
      have hbnd : batch.Nodup := hperm.nodup_iff.mpr (hdnd.sublist hsub)
      have hbmem : ∀ n ∈ batch, n ∈ deps := fun n hn => hsub.mem (hperm.mem_iff.mp hn)
      have hbex : ∀ n ∈ batch, n ∉ exh := fun n hn => hdex n (hbmem n hn)
      have hbsm : ∀ n ∈ batch, (lookupA n appT).isSome := fun n hn => hdsm n (hbmem n hn)
      have hex1nd : (exh ++ batch).Nodup :=
        hend.append hbnd (fun a ha hb => hbex a hb ha)
      have hex1sm : ∀ n ∈ exh ++ batch, (lookupA n appT).isSome := by
        intro n hn
        rcases List.mem_append.mp hn with hn | hn
        · exact hesm n hn
        · exact hbsm n hn
      cases hc : collectDeps appT succ batch (exh ++ batch) with
      | none => rw [hc] at h; cases h
      | some deps2 =>
        rw [hc] at h
        obtain ⟨h2nd, h2ex, h2sm⟩ := collectDeps_inv hc
        exact ih _ deps2 (exh ++ batch) exh' h2nd h2ex h2sm hex1nd hex1sm h

/-- Properties of the computed inhale list: sorted, exactly the
pull-capable apps, resolvable; duplicate-free when the app names are. -/
theorem computeInhale_spec (appT : List (String × AppState)) :
    List.Sorted sleR (computeInhale appT) ∧
    (∀ n, n ∈ computeInhale appT ↔ ∃ a, (n, a) ∈ appT ∧ a.conf.has_pull = true) ∧
    ((keysA appT).Nodup → (computeInhale appT).Nodup) ∧
    (∀ n ∈ computeInhale appT, (lookupA n appT).isSome) := by
  have hperm : (computeInhale appT).Perm ((appT.filter fun p => p.2.conf.has_pull).map Prod.fst) :=
    List.perm_insertionSort sleR _
  have hmem : ∀ n, n ∈ computeInhale appT ↔ ∃ a, (n, a) ∈ appT ∧ a.conf.has_pull = true := by
    intro n
    rw [hperm.mem_iff]
    constructor
    · intro hn
      rcases List.mem_map.mp hn with ⟨p, hp, hfst⟩
      rcases List.mem_filter.mp hp with ⟨hpa, hpull⟩
      refine ⟨p.2, ?_, hpull⟩
      rw [← hfst]
      exact hpa
    · rintro ⟨a, ha, hpull⟩
      exact List.mem_map.mpr ⟨(n, a), List.mem_filter.mpr ⟨ha, hpull⟩, rfl⟩
  refine ⟨List.sorted_insertionSort sleR _, hmem, ?_, ?_⟩
  · intro hnd
    refine hperm.nodup_iff.mpr ?_
    have hsub : ((appT.filter fun p => p.2.conf.has_pull).map Prod.fst).Sublist (keysA appT) :=
      (List.filter_sublist appT).map Prod.fst
    exact hnd.sublist hsub
  · intro n hn
    rcases (hmem n).mp hn with ⟨a, ha, _⟩
    exact lookupA_isSome_of_mem ha

/-- Invariants of the whole planner run. -/
theorem computePair_spec {lt : List (LinkSpec × Link)} {appT : List (String × AppState)}
    {inh exh : List String} (h : computePair lt appT = some (inh, exh)) :
    inh = computeInhale appT ∧ exh.Nodup ∧
    (∀ n ∈ inh, (lookupA n appT).isSome) ∧
    (∀ n ∈ exh, (lookupA n appT).isSome) := by
  unfold computePair at h
  cases h0 : initialDeps appT (buildSuccessors (lt.map Prod.fst)) (computeInhale appT) with
  | none => rw [h0] at h; cases h
  | some deps0 =>
    rw [h0] at h
    simp only at h
    cases h1 : exhaleRounds appT (appT.length + 1)
        ((computeInhale appT).foldl (fun m n => removeA n m)
          (buildSuccessors (lt.map Prod.fst))) deps0 [] with
    | none => rw [h1] at h; cases h
    | some exh1 =>
      rw [h1] at h
      cases h
      obtain ⟨h0nd, _, h0sm⟩ := initialDeps_inv h0
      have hrounds := exhaleRounds_inv appT _ _ deps0 [] _ h0nd (by simp) h0sm
        List.nodup_nil (by simp) h1
      exact ⟨rfl, hrounds.1, (computeInhale_spec appT).2.2.2, hrounds.2⟩


/-! ## Association-list lemmas -/

theorem lookupA_insertA_self {K V : Type} [DecidableEq K] (k : K) (v : V)
    (m : List (K × V)) : lookupA k (insertA k v m) = some v := by
  induction m with
  | nil => simp [insertA, lookupA]
  | cons p m ih =>
    obtain ⟨a, b⟩ := p
    by_cases hp : a = k
    · subst hp
      simp [insertA, lookupA]
    · simp [insertA, lookupA, hp, ih]

theorem lookupA_insertA_ne {K V : Type} [DecidableEq K] {k k' : K} (v : V)
    (m : List (K × V)) (h : k' ≠ k) : lookupA k' (insertA k v m) = lookupA k' m := by
  induction m with
  | nil => simp [insertA, lookupA, Ne.symm h]
  | cons p m ih =>
    obtain ⟨a, b⟩ := p
    by_cases hp : a = k
    · subst hp
      simp [insertA, lookupA, Ne.symm h]
    · simp [insertA, lookupA, hp, ih]

theorem lookupA_removeA_ne {K V : Type} [DecidableEq K] {k k' : K}
    (m : List (K × V)) (h : k' ≠ k) : lookupA k' (removeA k m) = lookupA k' m := by
  induction m with
  | nil => rfl
  | cons p m ih =>
    obtain ⟨a, b⟩ := p
    by_cases hp : a = k
    · subst hp
      simp [removeA, lookupA, Ne.symm h]
    · simp [removeA, lookupA, hp, ih]

theorem lookupA_eq_none_iff {K V : Type} [DecidableEq K] {k : K} {m : List (K × V)} :
    lookupA k m = none ↔ k ∉ keysA m := by
  induction m with
  | nil => simp [lookupA, keysA]
  | cons p m ih =>
    obtain ⟨a, b⟩ := p
    simp only [keysA, List.map_cons, List.mem_cons] at ih ⊢
    by_cases hp : a = k
    · subst hp
      simp [lookupA]
    · simp only [lookupA, if_neg hp]
      rw [ih]
      constructor
      · intro hn hor
        rcases hor with hor | hor
        · exact hp hor.symm
        · exact hn hor
      · intro hn hmem
        exact hn (Or.inr hmem)

theorem lookupA_mem {K V : Type} [DecidableEq K] {k : K} {v : V} {m : List (K × V)}
    (h : lookupA k m = some v) : (k, v) ∈ m := by
  induction m with
  | nil => cases h
  | cons p m ih =>
    obtain ⟨a, b⟩ := p
    by_cases hp : a = k
    · subst hp
      simp [lookupA] at h
      subst h
      exact List.mem_cons_self _ _
    · simp only [lookupA, if_neg hp] at h
      exact List.mem_cons_of_mem _ (ih h)

theorem lookupA_isSome_of_mem_keys {K V : Type} [DecidableEq K] {k : K}
    {m : List (K × V)} (h : k ∈ keysA m) : (lookupA k m).isSome := by
  cases hl : lookupA k m with
  | none => exact absurd h (lookupA_eq_none_iff.mp hl)
  | some v => rfl

theorem lookupA_removeA_self {K V : Type} [DecidableEq K] {k : K} {m : List (K × V)}
    (hnd : (keysA m).Nodup) : lookupA k (removeA k m) = none := by
  induction m with
  | nil => rfl
  | cons p m ih =>
    obtain ⟨a, b⟩ := p
    rcases List.nodup_cons.mp hnd with ⟨hpk, hm⟩
    by_cases hp : a = k
    · subst hp
      simp only [removeA, if_pos rfl]
      exact lookupA_eq_none_iff.mpr hpk
    · simp [removeA, lookupA, hp, ih hm]

theorem keysA_insertA_isSome {K V : Type} [DecidableEq K] {k : K} (v : V)
    {m : List (K × V)} (h : (lookupA k m).isSome) :
    keysA (insertA k v m) = keysA m := by
  induction m with
  | nil => simp [lookupA] at h
  | cons p m ih =>
    obtain ⟨a, b⟩ := p
    by_cases hp : a = k
    · subst hp
      simp [insertA, keysA]
    · simp only [lookupA, if_neg hp] at h
      simp [insertA, keysA, hp] at ih ⊢
      exact ih h

theorem insertA_absent {K V : Type} [DecidableEq K] {k : K} (v : V)
    {m : List (K × V)} (h : lookupA k m = none) : insertA k v m = m ++ [(k, v)] := by
  induction m with
  | nil => rfl
  | cons p m ih =>
    obtain ⟨a, b⟩ := p
    by_cases hp : a = k
    · subst hp
      simp [lookupA] at h
    · simp only [lookupA, if_neg hp] at h
      simp [insertA, hp, ih h]

theorem insertA_self_eq {K V : Type} [DecidableEq K] {k : K} {v : V}
    {m : List (K × V)} (h : lookupA k m = some v) : insertA k v m = m := by
  induction m with
  | nil => cases h
  | cons p m ih =>
    obtain ⟨a, b⟩ := p
    by_cases hp : a = k
    · subst hp
      simp [lookupA] at h
      subst h
      simp [insertA]
    · simp only [lookupA, if_neg hp] at h
      simp [insertA, hp, ih h]

theorem removeA_absent {K V : Type} [DecidableEq K] {k : K}
    {m : List (K × V)} (h : lookupA k m = none) : removeA k m = m := by
  induction m with
  | nil => rfl
  | cons p m ih =>
    obtain ⟨a, b⟩ := p
    by_cases hp : a = k
    · subst hp
      simp [lookupA] at h
    · simp only [lookupA, if_neg hp] at h
      simp [removeA, hp, ih h]

theorem keysA_removeA_sublist {K V : Type} [DecidableEq K] (k : K) (m : List (K × V)) :
    (keysA (removeA k m)).Sublist (keysA m) := by
  induction m with
  | nil => exact List.Sublist.refl _
  | cons p m ih =>
    obtain ⟨a, b⟩ := p
    by_cases hp : a = k
    · subst hp
      simp only [removeA, if_pos rfl]
      exact List.sublist_cons_self _ _
    · simp only [removeA, if_neg hp, keysA, List.map_cons]
      exact List.Sublist.cons₂ _ ih

theorem lookupA_append_left {K V : Type} [DecidableEq K] {k : K}
    {m : List (K × V)} (m2 : List (K × V)) (h : (lookupA k m).isSome) :
    lookupA k (m ++ m2) = lookupA k m := by
  induction m with
  | nil => simp [lookupA] at h
  | cons p m ih =>
    obtain ⟨a, b⟩ := p
    by_cases hp : a = k
    · subst hp
      simp [lookupA]
    · simp only [lookupA, if_neg hp] at h
      simp [lookupA, hp, ih h]

theorem lookupA_append_right {K V : Type} [DecidableEq K] {k : K}
    {m : List (K × V)} (m2 : List (K × V)) (h : lookupA k m = none) :
    lookupA k (m ++ m2) = lookupA k m2 := by
  induction m with
  | nil => rfl
  | cons p m ih =>
    obtain ⟨a, b⟩ := p
    by_cases hp : a = k
    · subst hp
      simp [lookupA] at h
    · simp only [lookupA, if_neg hp] at h
      simp [lookupA, hp, ih h]


/-! ## Per-operation reconfiguration lemmas -/

/-- The engine-visible identity of an app entry: the instantiated app
object (`instId`) and the retained configuration, slot tables excluded. -/
def metaView (n : String) (s : EngineState) : Option (Nat × AppConf) :=
  (lookupA n s.app_table).map fun a => (a.instId, a.conf)

theorem metaTable_insertA {n k : String} {a : AppState} {t : List (String × AppState)}
    (hl : lookupA k t = some a) (inp outp : List (String × LinkSpec)) :
    ((lookupA n (insertA k ⟨a.instId, a.conf, inp, outp⟩ t)).map fun x => (x.instId, x.conf)) =
    ((lookupA n t).map fun x => (x.instId, x.conf)) := by
  by_cases hn : n = k
  · subst hn
    rw [lookupA_insertA_self, hl]
    rfl
  · rw [lookupA_insertA_ne _ _ hn]

theorem unlink_apps_spec {s s' : EngineState} {sp : LinkSpec}
    (h : unlink_apps s sp = some s') :
    s'.link_table = removeA sp s.link_table ∧
    keysA s'.app_table = keysA s.app_table ∧
    (∀ n, metaView n s' = metaView n s) ∧
    s'.nextId = s.nextId := by
  unfold unlink_apps at h
  cases h1 : lookupA sp.from_ s.app_table with
  | none => rw [h1] at h; cases h
  | some afrom =>
    rw [h1] at h
    simp only at h
    cases h2 : lookupA sp.to_ (insertA sp.from_
        { afrom with output := removeA sp.output afrom.output } s.app_table) with
    | none => rw [h2] at h; cases h
    | some ato =>
      rw [h2] at h
      cases h
      refine ⟨rfl, ?_, ?_, rfl⟩
      · rw [keysA_insertA_isSome _ (by rw [h2]; rfl),
          keysA_insertA_isSome _ (by rw [h1]; rfl)]
      · intro n
        unfold metaView
        rw [metaTable_insertA h2 _ _, metaTable_insertA h1 _ _]

theorem stop_app_spec {s : EngineState} {name : String} {q : EngineState × (String × Bool)}
    (h : stop_app s name = some q) :
    ∃ a, lookupA name s.app_table = some a ∧
      q.1 = { s with app_table := removeA name s.app_table } ∧
      q.2 = (name, a.conf.has_stop) := by
  unfold stop_app at h
  cases h1 : lookupA name s.app_table with
  | none => rw [h1] at h; cases h
  | some a =>
    rw [h1] at h
    cases h
    exact ⟨a, rfl, rfl, rfl⟩

theorem link_apps_spec {s s' : EngineState} {sp : LinkSpec} (h : link_apps s sp = some s') :
    (∀ sp', (lookupA sp' s.link_table).isSome →
      lookupA sp' s'.link_table = lookupA sp' s.link_table) ∧
    (lookupA sp s'.link_table).isSome ∧
    keysA s'.app_table = keysA s.app_table ∧
    (∀ n, metaView n s' = metaView n s) ∧
    s'.nextId = s.nextId ∧
    ((keysA s.link_table).Nodup → (keysA s'.link_table).Nodup) ∧
    (lookupA sp.from_ s.app_table).isSome ∧ (lookupA sp.to_ s.app_table).isSome ∧
    (∀ sp', sp' ≠ sp → lookupA sp' s'.link_table = lookupA sp' s.link_table) ∧
    (∃ a, lookupA sp.from_ s'.app_table = some a ∧ lookupA sp.output a.output = some sp) ∧
    (∃ a, lookupA sp.to_ s'.app_table = some a ∧ lookupA sp.input a.input = some sp) := by
  unfold link_apps at h
  cases h1 : lookupA sp.from_ s.app_table with
  | none => rw [h1] at h; cases h
  | some afrom =>
    rw [h1] at h
    simp only at h
    cases h2 : lookupA sp.to_ (insertA sp.from_
        { afrom with output := insertA sp.output sp afrom.output } s.app_table) with
    | none => rw [h2] at h; cases h
    | some ato =>
      rw [h2] at h
      cases h
      have hto2 : (lookupA sp.to_ (insertA sp.from_
          { afrom with output := insertA sp.output sp afrom.output } s.app_table)).isSome := by
        rw [h2]; rfl
      have hltpres : ∀ sp', (lookupA sp' s.link_table).isSome →
          lookupA sp' (match lookupA sp s.link_table with
            | some _ => s.link_table
            | none => s.link_table ++ [(sp, Link.new)]) = lookupA sp' s.link_table := by
        intro sp' hsp'
        cases hsp : lookupA sp s.link_table with
        | some l => rfl
        | none => exact lookupA_append_left _ hsp'
      refine ⟨hltpres, ?_, ?_, ?_, rfl, ?_, ?_, ?_, ?_, ?_, ?_⟩
      · cases hsp : lookupA sp s.link_table with
        | some l =>
          show (lookupA sp s.link_table).isSome
          rw [hsp]; rfl
        | none =>
          show (lookupA sp (s.link_table ++ [(sp, Link.new)])).isSome
          rw [lookupA_append_right _ hsp]
          simp [lookupA]
      · rw [keysA_insertA_isSome _ hto2, keysA_insertA_isSome _ (by rw [h1]; rfl)]
      · intro n
        unfold metaView
        rw [metaTable_insertA h2 _ _, metaTable_insertA h1 _ _]
      · intro hnd
        cases hsp : lookupA sp s.link_table with
        | some l =>
          show (keysA s.link_table).Nodup
          exact hnd
        | none =>
          show (keysA (s.link_table ++ [(sp, Link.new)])).Nodup
          unfold keysA
          rw [List.map_append]
          refine hnd.append (List.nodup_singleton _) ?_
          intro x hx hx2
          rcases List.mem_singleton.mp hx2 with rfl
          exact absurd hx (lookupA_eq_none_iff.mp hsp)
      · simp [h1]
      · cases hq : lookupA sp.to_ s.app_table with
        | some x => rfl
        | none =>
          exfalso
          by_cases hft : sp.to_ = sp.from_
          · rw [hft, h1] at hq
            cases hq
          · rw [lookupA_insertA_ne _ _ hft] at h2
            rw [hq] at h2
            cases h2
      · intro sp' hne
        cases hsp : lookupA sp s.link_table with
        | some l => rfl
        | none =>
          show lookupA sp' (s.link_table ++ [(sp, Link.new)]) = lookupA sp' s.link_table
          cases hsp' : lookupA sp' s.link_table with
          | some l => rw [lookupA_append_left _ (by rw [hsp']; rfl), hsp']
          | none =>
            rw [lookupA_append_right _ hsp']
            unfold lookupA
            rw [if_neg (fun hh : sp = sp' => hne hh.symm)]
            rfl
      · by_cases hft : sp.to_ = sp.from_
        · refine ⟨{ ato with input := insertA sp.input sp ato.input }, ?_, ?_⟩
          · rw [← hft, lookupA_insertA_self]
          · show lookupA sp.output ato.output = some sp
            rw [hft] at h2
            rw [lookupA_insertA_self] at h2
            cases h2
            show lookupA sp.output (insertA sp.output sp afrom.output) = some sp
            rw [lookupA_insertA_self]
        · refine ⟨{ afrom with output := insertA sp.output sp afrom.output }, ?_, ?_⟩
          · rw [lookupA_insertA_ne _ _ (fun hh => hft hh.symm), lookupA_insertA_self]
          · show lookupA sp.output (insertA sp.output sp afrom.output) = some sp
            rw [lookupA_insertA_self]
      · exact ⟨{ ato with input := insertA sp.input sp ato.input },
          lookupA_insertA_self _ _ _,
          lookupA_insertA_self _ _ _⟩


/-! ## Phase-level reconfiguration lemmas -/

theorem removeDeadFold (c : Config) :
    ∀ (names : List LinkSpec) (s0 s1 : EngineState),
      foldOpt (removeDeadStep c) s0 names = some s1 →
      names.Nodup →
      (∀ sp, sp ∈ c.links ∨ sp ∉ names →
        lookupA sp s1.link_table = lookupA sp s0.link_table) ∧
      (∀ sp, sp ∉ c.links → sp ∈ names → (keysA s0.link_table).Nodup →
        lookupA sp s1.link_table = none) ∧
      (∀ n, metaView n s1 = metaView n s0) ∧
      keysA s1.app_table = keysA s0.app_table ∧
      s1.nextId = s0.nextId ∧
      (keysA s1.link_table).Sublist (keysA s0.link_table) := by
  intro names
  induction names with
  | nil =>
    intro s0 s1 h _
    cases h
    exact ⟨fun _ _ => rfl, fun sp _ hin => absurd hin (List.not_mem_nil sp),
      fun _ => rfl, rfl, rfl, List.Sublist.refl _⟩
  | cons sp names ih =>
    intro s0 s1 h hnd
    rcases List.nodup_cons.mp hnd with ⟨hsp, hnd2⟩
    unfold foldOpt at h
    by_cases hc : sp ∈ c.links
    · rw [show removeDeadStep c s0 sp = some s0 from by unfold removeDeadStep; rw [if_pos hc]]
        at h
      simp only at h
      obtain ⟨ih1, ih2, ih3, ih4, ih5, ih6⟩ := ih s0 s1 h hnd2
      refine ⟨?_, ?_, ih3, ih4, ih5, ih6⟩
      · intro sp' hor
        refine ih1 sp' ?_
        rcases hor with hor | hor
        · exact Or.inl hor
        · exact Or.inr (fun hin => hor (List.mem_cons_of_mem _ hin))
      · intro sp' hc' hin' hknd
        rcases List.mem_cons.mp hin' with hin' | hin'
        · subst hin'
          exact absurd hc (by exact fun hcc => hc' hcc)
        · exact ih2 sp' hc' hin' hknd
    · rw [show removeDeadStep c s0 sp = unlink_apps s0 sp from by
        unfold removeDeadStep; rw [if_neg hc]] at h
      cases hu : unlink_apps s0 sp with
      | none => rw [hu] at h; cases h
      | some s0' =>
        rw [hu] at h
        simp only at h
        obtain ⟨hlt, hkeys, hmeta, hnext⟩ := unlink_apps_spec hu
        obtain ⟨ih1, ih2, ih3, ih4, ih5, ih6⟩ := ih s0' s1 h hnd2
        refine ⟨?_, ?_, ?_, ?_, ?_, ?_⟩
        · intro sp' hor
          have hne : sp' ≠ sp := by
            rcases hor with hor | hor
            · exact fun he => hc (he ▸ hor)
            · exact fun he => hor (he ▸ List.mem_cons_self sp names)
          have h1 := ih1 sp' (by
            rcases hor with hor | hor
            · exact Or.inl hor
            · exact Or.inr (fun hin => hor (List.mem_cons_of_mem _ hin)))
          rw [h1, hlt, lookupA_removeA_ne _ hne]
        · intro sp' hc' hin' hknd
          rcases List.mem_cons.mp hin' with hin' | hin'
          · subst hin'
            have h1 := ih1 sp' (Or.inr hsp)
            rw [h1, hlt, lookupA_removeA_self hknd]
          · refine ih2 sp' hc' hin' ?_
            rw [hlt]
            exact hknd.sublist (keysA_removeA_sublist _ _)
        · intro n
          rw [ih3 n, hmeta n]
        · rw [ih4, hkeys]
        · rw [ih5, hnext]
        · refine ih6.trans ?_
          rw [hlt]
          exact keysA_removeA_sublist _ _

theorem removeDeadLinks_spec {s s1 : EngineState} {c : Config}
    (hlnd : (keysA s.link_table).Nodup)
    (h : removeDeadLinks s c = some s1) :
    (∀ sp, sp ∈ c.links → lookupA sp s1.link_table = lookupA sp s.link_table) ∧
    (∀ sp, sp ∉ c.links → lookupA sp s1.link_table = none) ∧
    (∀ n, metaView n s1 = metaView n s) ∧
    keysA s1.app_table = keysA s.app_table ∧
    s1.nextId = s.nextId ∧
    (keysA s1.link_table).Nodup := by
  obtain ⟨h1, h2, h3, h4, h5, h6⟩ := removeDeadFold c _ s s1 h hlnd
  refine ⟨fun sp hc => h1 sp (Or.inl hc), ?_, h3, h4, h5, hlnd.sublist h6⟩
  intro sp hc
  by_cases hin : sp ∈ keysA s.link_table
  · exact h2 sp hc hin hlnd
  · rw [h1 sp (Or.inr hin)]
    exact lookupA_eq_none_iff.mpr hin


/-- An app entry survives phase 2 of `configure` iff the desired config
names it with an equal configuration identity (engine.rs:246-256). -/
def KeepC (c : Config) (n : String) (a : AppState) : Prop :=
  ∃ cf, lookupA n c.apps = some cf ∧ a.conf.identity = cf.identity

theorem lookupA_some_mem_keys {K V : Type} [DecidableEq K] {k : K} {v : V}
    {m : List (K × V)} (h : lookupA k m = some v) : k ∈ keysA m :=
  List.mem_map_of_mem Prod.fst (lookupA_mem h)

theorem stopFold (c : Config) :
    ∀ (names : List String) (s0 : EngineState) (acc : List (String × Bool))
      (s2 : EngineState) (ev : List (String × Bool)),
      foldOpt (stopStep c) (s0, acc) names = some (s2, ev) →
      names.Nodup → (keysA s0.app_table).Nodup →
      ∃ delta,
        ev = acc ++ delta ∧
        (∀ n, n ∉ names → lookupA n s2.app_table = lookupA n s0.app_table) ∧
        (∀ p, p ∈ delta → p.1 ∈ names) ∧
        (∀ n a, n ∈ names → lookupA n s0.app_table = some a →
          (KeepC c n a → lookupA n s2.app_table = some a ∧ ∀ b, (n, b) ∉ delta) ∧
          (¬ KeepC c n a → lookupA n s2.app_table = none ∧ (n, a.conf.has_stop) ∈ delta)) ∧
        s2.link_table = s0.link_table ∧ s2.nextId = s0.nextId ∧
        (keysA s2.app_table).Nodup := by
  intro names
  induction names with
  | nil =>
    intro s0 acc s2 ev h _ hknd
    cases h
    exact ⟨[], by simp, fun _ _ => rfl, by simp, fun n a hin => absurd hin (List.not_mem_nil n),
      rfl, rfl, hknd⟩
  | cons nm names ih =>
    intro s0 acc s2 ev h hnd hknd
    rcases List.nodup_cons.mp hnd with ⟨hnm, hnd2⟩
    unfold foldOpt at h
    cases ha : lookupA nm s0.app_table with
    | none =>
      rw [show stopStep c (s0, acc) nm = none from by unfold stopStep; rw [ha]] at h
      cases h
    | some a =>
      by_cases hkeep : KeepC c nm a
      · obtain ⟨cf, hcf, hid⟩ := hkeep
        rw [show stopStep c (s0, acc) nm = some (s0, acc) from by
          unfold stopStep; rw [ha, hcf]; simp only; rw [if_pos hid]] at h
        simp only at h
        obtain ⟨delta, hev, hpres, hdk, hpern, hlt, hnext, hnd3⟩ := ih s0 acc s2 ev h hnd2 hknd
        refine ⟨delta, hev, ?_, ?_, ?_, hlt, hnext, hnd3⟩
        · intro n hn
          exact hpres n (fun hin => hn (List.mem_cons_of_mem _ hin))
        · intro p hp
          exact List.mem_cons_of_mem _ (hdk p hp)
        · intro n a0 hin ha0
          rcases List.mem_cons.mp hin with hin | hin
          · subst hin
            rw [ha] at ha0
            cases ha0
            constructor
            · intro _
              refine ⟨?_, ?_⟩
              · rw [hpres n hnm, ha]
              · intro b hb
                exact hnm (hdk (n, b) hb)
            · intro hnk
              exact absurd ⟨cf, hcf, hid⟩ hnk
          · exact hpern n a0 hin ha0
      · have hstop : stopStep c (s0, acc) nm =
            some ({ s0 with app_table := removeA nm s0.app_table },
              acc ++ [(nm, a.conf.has_stop)]) := by
          unfold stopStep
          rw [ha]
          cases hcf : lookupA nm c.apps with
          | none =>
            simp only
            unfold stop_app
            rw [ha]
          | some cf =>
            simp only
            rw [if_neg (fun hid => hkeep ⟨cf, hcf, hid⟩)]
            unfold stop_app
            rw [ha]
        rw [hstop] at h
        simp only at h
        have hknd2 : (keysA (removeA nm s0.app_table)).Nodup :=
          hknd.sublist (keysA_removeA_sublist _ _)
        obtain ⟨delta, hev, hpres, hdk, hpern, hlt, hnext, hnd3⟩ :=
          ih { s0 with app_table := removeA nm s0.app_table }
            (acc ++ [(nm, a.conf.has_stop)]) s2 ev h hnd2 hknd2
        refine ⟨(nm, a.conf.has_stop) :: delta, ?_, ?_, ?_, ?_, hlt, hnext, hnd3⟩
        · rw [hev, List.append_assoc]
          rfl
        · intro n hn
          have hne : n ≠ nm := fun he => hn (he ▸ List.mem_cons_self nm names)
          rw [hpres n (fun hin => hn (List.mem_cons_of_mem _ hin))]
          exact lookupA_removeA_ne _ hne
        · intro p hp
          rcases List.mem_cons.mp hp with hp | hp
          · subst hp
            exact List.mem_cons_self _ _
          · exact List.mem_cons_of_mem _ (hdk p hp)
        · intro n a0 hin ha0
          rcases List.mem_cons.mp hin with hin | hin
          · subst hin
            rw [ha] at ha0
            cases ha0
            constructor
            · intro hk
              exact absurd hk hkeep
            · intro _
              refine ⟨?_, List.mem_cons_self _ _⟩
              rw [hpres n hnm]
              exact lookupA_removeA_self hknd
          · have hne : n ≠ nm := fun he => hnm (he ▸ hin)
            have ha1 : lookupA n (removeA nm s0.app_table) = some a0 := by
              rw [lookupA_removeA_ne _ hne]
              exact ha0
            have hp := hpern n a0 hin ha1
            refine ⟨fun hk => ⟨(hp.1 hk).1, ?_⟩, fun hnk => ⟨(hp.2 hnk).1, ?_⟩⟩
            · intro b hb
              rcases List.mem_cons.mp hb with hb | hb
              · exact hne (by cases hb; rfl)
              · exact (hp.1 hk).2 b hb
            · exact List.mem_cons_of_mem _ (hp.2 hnk).2

theorem stopPhase_spec {s s2 : EngineState} {c : Config} {ev : List (String × Bool)}
    (hknd : (keysA s.app_table).Nodup)
    (h : stopPhase s c = some (s2, ev)) :
    (∀ n a, lookupA n s.app_table = some a →
      (KeepC c n a → lookupA n s2.app_table = some a ∧ ∀ b, (n, b) ∉ ev) ∧
      (¬ KeepC c n a → lookupA n s2.app_table = none ∧ (n, a.conf.has_stop) ∈ ev)) ∧
    (∀ n, lookupA n s.app_table = none → lookupA n s2.app_table = none) ∧
    s2.link_table = s.link_table ∧ s2.nextId = s.nextId ∧
    (keysA s2.app_table).Nodup := by
  obtain ⟨delta, hev, hpres, _, hpern, hlt, hnext, hnd3⟩ :=
    stopFold c _ s [] s2 ev h hknd hknd
  rw [List.nil_append] at hev
  subst hev
  refine ⟨?_, ?_, hlt, hnext, hnd3⟩
  · intro n a ha
    exact hpern n a (lookupA_some_mem_keys ha) ha
  · intro n hn
    rw [hpres n (fun hin => by
      rw [lookupA_eq_none_iff] at hn
      exact hn hin)]
    exact hn


theorem startFold :
    ∀ (papps : List (String × AppConf)) (s0 : EngineState),
      (keysA papps).Nodup →
      (∀ n a, lookupA n s0.app_table = some a →
        lookupA n (papps.foldl startStep s0).app_table = some a) ∧
      (∀ n, lookupA n papps = none →
        lookupA n (papps.foldl startStep s0).app_table = lookupA n s0.app_table) ∧
      (∀ n cf, lookupA n papps = some cf → lookupA n s0.app_table = none →
        ∃ id, lookupA n (papps.foldl startStep s0).app_table =
            some ⟨id, cf, [], []⟩ ∧ s0.nextId ≤ id) ∧
      (papps.foldl startStep s0).link_table = s0.link_table ∧
      s0.nextId ≤ (papps.foldl startStep s0).nextId ∧
      ((keysA s0.app_table).Nodup → (keysA (papps.foldl startStep s0).app_table).Nodup) ∧
      (∀ n a, lookupA n (papps.foldl startStep s0).app_table = some a →
        lookupA n s0.app_table = some a ∨
        ∃ cf id, lookupA n papps = some cf ∧ a = ⟨id, cf, [], []⟩) := by
  intro papps
  induction papps with
  | nil =>
    intro s0 _
    refine ⟨fun _ _ h => h, fun _ _ => rfl, ?_, rfl, le_refl _,
      fun h => h, fun n a h => Or.inl h⟩
    intro n cf h
    simp [lookupA] at h
  | cons p papps ih =>
    intro s0 hnd
    obtain ⟨nm, cf⟩ := p
    rcases List.nodup_cons.mp hnd with ⟨hnm, hnd2⟩
    rw [List.foldl_cons]
    cases ha : lookupA nm s0.app_table with
    | some a0 =>
      rw [show startStep s0 (nm, cf) = s0 from by unfold startStep; rw [ha]; rfl]
      obtain ⟨ih1, ih2, ih3, ih4, ih5, ih6, ih7⟩ := ih s0 hnd2
      refine ⟨ih1, ?_, ?_, ih4, ih5, ih6, ?_⟩
      · intro n hn
        by_cases hne : nm = n
        · subst hne
          simp [lookupA] at hn
        · refine ih2 n ?_
          simpa [lookupA, hne] using hn
      · intro n cf0 hc h0
        by_cases hne : nm = n
        · subst hne
          rw [ha] at h0
          cases h0
        · simp only [lookupA, if_neg hne] at hc
          exact ih3 n cf0 hc h0
      · intro n a h
        rcases ih7 n a h with h | ⟨cf0, id, hc, he⟩
        · exact Or.inl h
        · refine Or.inr ⟨cf0, id, ?_, he⟩
          have hne : nm ≠ n := by
            intro he2
            subst he2
            exact hnm (lookupA_some_mem_keys hc)
          simp only [lookupA, if_neg hne]
          exact hc
    | none =>
      rw [show startStep s0 (nm, cf) = start_app s0 nm cf from by
        unfold startStep; rw [ha]; rfl]
      unfold start_app
      rw [insertA_absent _ ha]
      set s0' : EngineState := { s0 with
        app_table := s0.app_table ++ [(nm, ⟨s0.nextId, cf, [], []⟩)],
        nextId := s0.nextId + 1 } with hs0'
      obtain ⟨ih1, ih2, ih3, ih4, ih5, ih6, ih7⟩ := ih s0' hnd2
      have hlook : ∀ n, n ≠ nm →
          lookupA n s0'.app_table = lookupA n s0.app_table := by
        intro n hne
        show lookupA n (s0.app_table ++ [(nm, ⟨s0.nextId, cf, [], []⟩)]) = _
        cases hn0 : lookupA n s0.app_table with
        | some a => rw [lookupA_append_left _ (by rw [hn0]; rfl), hn0]
        | none =>
          rw [lookupA_append_right _ hn0]
          simp [lookupA, Ne.symm hne]
      have hlooknm : lookupA nm s0'.app_table = some ⟨s0.nextId, cf, [], []⟩ := by
        show lookupA nm (s0.app_table ++ [(nm, ⟨s0.nextId, cf, [], []⟩)]) = _
        rw [lookupA_append_right _ ha]
        simp [lookupA]
      refine ⟨?_, ?_, ?_, ih4, ?_, ?_, ?_⟩
      · intro n a hn
        have hne : n ≠ nm := by
          intro he
          subst he
          rw [ha] at hn
          cases hn
        refine ih1 n a ?_
        rw [hlook n hne]
        exact hn
      · intro n hn
        have hne : n ≠ nm := by
          intro he
          subst he
          simp [lookupA] at hn
        have hn2 : lookupA n papps = none := by
          simpa [lookupA, Ne.symm hne] using hn
        rw [ih2 n hn2, hlook n hne]
      · intro n cf0 hc h0
        by_cases hne : nm = n
        · subst hne
          simp [lookupA] at hc
          subst hc
          obtain ⟨id, hid, hle⟩ :=
            (fun h => ⟨s0.nextId, h, le_refl _⟩ :
              lookupA nm (papps.foldl startStep s0').app_table =
                some ⟨s0.nextId, cf, [], []⟩ →
              ∃ id, lookupA nm (papps.foldl startStep s0').app_table =
                some ⟨id, cf, [], []⟩ ∧ s0.nextId ≤ id)
            (ih1 nm ⟨s0.nextId, cf, [], []⟩ hlooknm)
          exact ⟨id, hid, hle⟩
        · simp only [lookupA, if_neg hne] at hc
          have h0' : lookupA n s0'.app_table = none := by
            rw [hlook n (fun he => hne he.symm)]
            exact h0
          obtain ⟨id, hid, hle⟩ := ih3 n cf0 hc h0'
          refine ⟨id, hid, ?_⟩
          calc s0.nextId ≤ s0.nextId + 1 := Nat.le_succ _
            _ ≤ id := hle
      · calc s0.nextId ≤ s0.nextId + 1 := Nat.le_succ _
          _ ≤ (papps.foldl startStep s0').nextId := ih5
      · intro hknd
        refine ih6 ?_
        show (keysA (s0.app_table ++ [(nm, ⟨s0.nextId, cf, [], []⟩)])).Nodup
        unfold keysA
        rw [List.map_append]
        refine hknd.append (List.nodup_singleton _) ?_
        intro x hx hx2
        rcases List.mem_singleton.mp hx2 with rfl
        exact (lookupA_eq_none_iff.mp ha) hx
      · intro n a h
        rcases ih7 n a h with h2 | ⟨cf0, id, hc, he⟩
        · by_cases hne : n = nm
          · subst hne
            rw [hlooknm] at h2
            cases h2
            exact Or.inr ⟨cf, s0.nextId, by simp [lookupA], rfl⟩
          · rw [hlook n hne] at h2
            exact Or.inl h2
        · refine Or.inr ⟨cf0, id, ?_, he⟩
          have hne : nm ≠ n := by
            intro he2
            subst he2
            exact hnm (lookupA_some_mem_keys hc)
          simp only [lookupA, if_neg hne]
          exact hc

/-- `link_apps` for another spec preserves an existing output-slot
binding unless it targets exactly the same app and slot; likewise for
input slots. -/
theorem link_apps_preserves_binding {s s' : EngineState} {sp' : LinkSpec}
    (h : link_apps s sp' = some s') :
    (∀ app slot v, ¬(sp'.from_ = app ∧ sp'.output = slot) →
      (∃ a, lookupA app s.app_table = some a ∧ lookupA slot a.output = some v) →
      ∃ a, lookupA app s'.app_table = some a ∧ lookupA slot a.output = some v) ∧
    (∀ app slot v, ¬(sp'.to_ = app ∧ sp'.input = slot) →
      (∃ a, lookupA app s.app_table = some a ∧ lookupA slot a.input = some v) →
      ∃ a, lookupA app s'.app_table = some a ∧ lookupA slot a.input = some v) := by
  unfold link_apps at h
  cases h1 : lookupA sp'.from_ s.app_table with
  | none => rw [h1] at h; cases h
  | some afrom =>
    rw [h1] at h
    simp only at h
    cases h2 : lookupA sp'.to_ (insertA sp'.from_
        { afrom with output := insertA sp'.output sp' afrom.output } s.app_table) with
    | none => rw [h2] at h; cases h
    | some ato =>
      rw [h2] at h
      cases h
      constructor
      · intro app slot v hne hb
        obtain ⟨a, hla, hlb⟩ := hb
        have hb1 : ∃ a1, lookupA app (insertA sp'.from_
            { afrom with output := insertA sp'.output sp' afrom.output } s.app_table) =
              some a1 ∧ lookupA slot a1.output = some v := by
          by_cases hf : app = sp'.from_
          · subst hf
            rw [hla] at h1
            have hb2 : lookupA slot afrom.output = some v := by
              rw [← Option.some.inj h1]
              exact hlb
            refine ⟨_, lookupA_insertA_self _ _ _, ?_⟩
            show lookupA slot (insertA sp'.output sp' afrom.output) = some v
            rw [lookupA_insertA_ne _ _ (fun hs => hne ⟨rfl, hs.symm⟩)]
            exact hb2
          · exact ⟨a, by rw [lookupA_insertA_ne _ _ hf]; exact hla, hlb⟩
        obtain ⟨a1, hla1, hlb1⟩ := hb1
        by_cases ht : app = sp'.to_
        · subst ht
          rw [hla1] at h2
          have hb2 : lookupA slot ato.output = some v := by
            rw [← Option.some.inj h2]
            exact hlb1
          exact ⟨_, lookupA_insertA_self _ _ _, hb2⟩
        · exact ⟨a1, by rw [lookupA_insertA_ne _ _ ht]; exact hla1, hlb1⟩
      · intro app slot v hne hb
        obtain ⟨a, hla, hlb⟩ := hb
        have hb1 : ∃ a1, lookupA app (insertA sp'.from_
            { afrom with output := insertA sp'.output sp' afrom.output } s.app_table) =
              some a1 ∧ lookupA slot a1.input = some v := by
          by_cases hf : app = sp'.from_
          · subst hf
            rw [hla] at h1
            have hb2 : lookupA slot afrom.input = some v := by
              rw [← Option.some.inj h1]
              exact hlb
            exact ⟨_, lookupA_insertA_self _ _ _, hb2⟩
          · exact ⟨a, by rw [lookupA_insertA_ne _ _ hf]; exact hla, hlb⟩
        obtain ⟨a1, hla1, hlb1⟩ := hb1
        by_cases ht : app = sp'.to_
        · subst ht
          rw [hla1] at h2
          have hb2 : lookupA slot ato.input = some v := by
            rw [← Option.some.inj h2]
            exact hlb1
          refine ⟨_, lookupA_insertA_self _ _ _, ?_⟩
          show lookupA slot (insertA sp'.input sp' ato.input) = some v
          rw [lookupA_insertA_ne _ _ (fun hs => hne ⟨rfl, hs.symm⟩)]
          exact hb2
        · exact ⟨a1, by rw [lookupA_insertA_ne _ _ ht]; exact hla1, hlb1⟩

/-- No two link specs of the list bind the same output slot or the same
input slot (the spec's "duplicate slot binding" well-formedness). -/
def NoDupSlots (links : List LinkSpec) : Prop :=
  links.Pairwise fun sp sp' =>
    ¬(sp.from_ = sp'.from_ ∧ sp.output = sp'.output) ∧
    ¬(sp.to_ = sp'.to_ ∧ sp.input = sp'.input)

instance NoDupSlots.decidable (links : List LinkSpec) : Decidable (NoDupSlots links) := by
  unfold NoDupSlots
  infer_instance

theorem rebuildFold_preserves_bindings :
    ∀ (specs : List LinkSpec) (s0 s4 : EngineState),
      foldOpt link_apps s0 specs = some s4 →
      ∀ (sp : LinkSpec),
        (∀ sp' ∈ specs, ¬(sp'.from_ = sp.from_ ∧ sp'.output = sp.output) ∧
          ¬(sp'.to_ = sp.to_ ∧ sp'.input = sp.input)) →
        (∃ a, lookupA sp.from_ s0.app_table = some a ∧
            lookupA sp.output a.output = some sp) →
        (∃ a, lookupA sp.to_ s0.app_table = some a ∧
            lookupA sp.input a.input = some sp) →
        (∃ a, lookupA sp.from_ s4.app_table = some a ∧
            lookupA sp.output a.output = some sp) ∧
        (∃ a, lookupA sp.to_ s4.app_table = some a ∧
            lookupA sp.input a.input = some sp) := by
  intro specs
  induction specs with
  | nil =>
    intro s0 s4 h sp _ hbo hbi
    cases h
    exact ⟨hbo, hbi⟩
  | cons sp1 specs ih =>
    intro s0 s4 h sp hnd hbo hbi
    unfold foldOpt at h
    cases hl : link_apps s0 sp1 with
    | none => rw [hl] at h; cases h
    | some s0' =>
      rw [hl] at h
      simp only at h
      obtain ⟨hpo, hpi⟩ := link_apps_preserves_binding hl
      have hrel := hnd sp1 (List.mem_cons_self _ _)
      exact ih s0' s4 h sp (fun sp' hsp' => hnd sp' (List.mem_cons_of_mem _ hsp'))
        (hpo sp.from_ sp.output sp hrel.1 hbo) (hpi sp.to_ sp.input sp hrel.2 hbi)

theorem rebuildFold :
    ∀ (specs : List LinkSpec) (s0 s4 : EngineState),
      foldOpt link_apps s0 specs = some s4 →
      (∀ n, metaView n s4 = metaView n s0) ∧
      keysA s4.app_table = keysA s0.app_table ∧
      s4.nextId = s0.nextId ∧
      (∀ sp', (lookupA sp' s0.link_table).isSome →
        lookupA sp' s4.link_table = lookupA sp' s0.link_table) ∧
      (∀ sp, sp ∈ specs → (lookupA sp s4.link_table).isSome) ∧
      (∀ sp, sp ∈ specs →
        sp.from_ ∈ keysA s0.app_table ∧ sp.to_ ∈ keysA s0.app_table) ∧
      ((keysA s0.link_table).Nodup → (keysA s4.link_table).Nodup) ∧
      (NoDupSlots specs →
        ∀ sp, sp ∈ specs →
          (∃ a, lookupA sp.from_ s4.app_table = some a ∧
            lookupA sp.output a.output = some sp) ∧
          (∃ a, lookupA sp.to_ s4.app_table = some a ∧
            lookupA sp.input a.input = some sp)) := by
  intro specs
  induction specs with
  | nil =>
    intro s0 s4 h
    cases h
    exact ⟨fun _ => rfl, rfl, rfl, fun _ _ => rfl,
      fun sp hsp => absurd hsp (List.not_mem_nil sp),
      fun sp hsp => absurd hsp (List.not_mem_nil sp), fun h => h,
      fun _ sp hsp => absurd hsp (List.not_mem_nil sp)⟩
  | cons sp1 specs ih =>
    intro s0 s4 h
    unfold foldOpt at h
    cases hl : link_apps s0 sp1 with
    | none => rw [hl] at h; cases h
    | some s0' =>
      rw [hl] at h
      simp only at h
      obtain ⟨hpres, hsp1some, hkeys, hmeta, hnext, hlnd, hfrom, hto, _, hbo1, hbi1⟩ :=
        link_apps_spec hl
      obtain ⟨ih1, ih2, ih3, ih4, ih5, ih6, ih7, ih8⟩ := ih s0' s4 h
      refine ⟨?_, ?_, ?_, ?_, ?_, ?_, ?_, ?_⟩
      · intro n
        rw [ih1 n, hmeta n]
      · rw [ih2, hkeys]
      · rw [ih3, hnext]
      · intro sp' hsp'
        rw [ih4 sp' (by rw [hpres sp' hsp']; exact hsp'), hpres sp' hsp']
      · intro sp hsp
        rcases List.mem_cons.mp hsp with hsp | hsp
        · subst hsp
          rw [ih4 sp hsp1some]
          exact hsp1some
        · exact ih5 sp hsp
      · intro sp hsp
        rcases List.mem_cons.mp hsp with hsp | hsp
        · subst hsp
          constructor
          · by_cases hf : (lookupA sp.from_ s0.app_table) = none
            · rw [hf] at hfrom
              cases hfrom
            · cases hq : lookupA sp.from_ s0.app_table with
              | none => exact absurd hq hf
              | some a => exact lookupA_some_mem_keys hq
          · by_cases hf : (lookupA sp.to_ s0.app_table) = none
            · rw [hf] at hto
              cases hto
            · cases hq : lookupA sp.to_ s0.app_table with
              | none => exact absurd hq hf
              | some a => exact lookupA_some_mem_keys hq
        · have h6 := ih6 sp hsp
          rw [hkeys] at h6
          exact h6
      · intro hnd
        exact ih7 (hlnd hnd)
      · intro hnds sp hsp
        rcases List.pairwise_cons.mp hnds with ⟨hrel, hnds2⟩
        rcases List.mem_cons.mp hsp with hsp | hsp
        · subst hsp
          refine rebuildFold_preserves_bindings specs s0' s4 h sp ?_ hbo1 hbi1
          intro sp' hsp'
          have hr := hrel sp' hsp'
          exact ⟨fun hq => hr.1 ⟨hq.1.symm, hq.2.symm⟩, fun hq => hr.2 ⟨hq.1.symm, hq.2.symm⟩⟩
        · exact ih8 hnds2 sp hsp


theorem configure_decomp {s s' : EngineState} {c : Config} {ev : List (String × Bool)}
    (h : configure s c = some (s', ev)) :
    ∃ s1 s2 s4 inh exh,
      removeDeadLinks s c = some s1 ∧
      stopPhase s1 c = some (s2, ev) ∧
      rebuildLinks (startPhase s2 c) c = some s4 ∧
      computePair s4.link_table s4.app_table = some (inh, exh) ∧
      s' = { s4 with inhale := inh, exhale := exh } := by
  unfold configure at h
  cases h1 : removeDeadLinks s c with
  | none => rw [h1] at h; cases h
  | some s1 =>
    rw [h1] at h
    simp only at h
    cases h2 : stopPhase s1 c with
    | none => rw [h2] at h; cases h
    | some p2 =>
      rw [h2] at h
      simp only at h
      cases h4 : rebuildLinks (startPhase p2.1 c) c with
      | none => rw [h4] at h; cases h
      | some s4 =>
        rw [h4] at h
        simp only at h
        cases h5 : compute_breathe_order s4 with
        | none => rw [h5] at h; cases h
        | some s5 =>
          rw [h5] at h
          cases h
          unfold compute_breathe_order at h5
          cases hc : computePair s4.link_table s4.app_table with
          | none => rw [hc] at h5; cases h5
          | some p =>
            rw [hc] at h5
            cases h5
            exact ⟨s1, p2.1, s4, p.1, p.2, rfl, h2, h4, hc, rfl⟩

theorem metaView_some_elim {n : String} {sa sb : EngineState} {a : AppState}
    (hm : metaView n sb = metaView n sa) (ha : lookupA n sa.app_table = some a) :
    ∃ a1, lookupA n sb.app_table = some a1 ∧ a1.instId = a.instId ∧ a1.conf = a.conf := by
  unfold metaView at hm
  rw [ha] at hm
  cases hb : lookupA n sb.app_table with
  | none =>
    rw [hb] at hm
    cases hm
  | some a1 =>
    rw [hb] at hm
    have hm2 : (a1.instId, a1.conf) = (a.instId, a.conf) := Option.some.inj hm
    exact ⟨a1, rfl, congrArg Prod.fst hm2, congrArg Prod.snd hm2⟩

/-- C6: semantics of reconfiguration (engine.rs:237-269).  For a
well-formed state and configuration: an app named by the new config with
an equal identity keeps its instance and retained configuration and is
not stopped; an app absent from the new config is stopped (its stop hook
invoked exactly when advertised) and disappears; an app whose identity
changed is stopped and restarted as a fresh instance of the new
configuration; and the value (counters) of every link present in both
the old state and the new config persists. -/
theorem c6_configure_semantics (s : EngineState) (c : Config) (s' : EngineState)
    (ev : List (String × Bool))
    (hknd : (keysA s.app_table).Nodup) (hlnd : (keysA s.link_table).Nodup)
    (hidb : ∀ p ∈ s.app_table, p.2.instId < s.nextId)
    (hcnd : (keysA c.apps).Nodup)
    (h : configure s c = some (s', ev)) :
    (∀ n a cf, lookupA n s.app_table = some a → lookupA n c.apps = some cf →
      a.conf.identity = cf.identity →
      (∃ a', lookupA n s'.app_table = some a' ∧ a'.instId = a.instId ∧ a'.conf = a.conf) ∧
      (∀ b, (n, b) ∉ ev)) ∧
    (∀ n a, lookupA n s.app_table = some a → lookupA n c.apps = none →
      lookupA n s'.app_table = none ∧ (n, a.conf.has_stop) ∈ ev) ∧
    (∀ n a cf, lookupA n s.app_table = some a → lookupA n c.apps = some cf →
      a.conf.identity ≠ cf.identity →
      (n, a.conf.has_stop) ∈ ev ∧
      (∃ a', lookupA n s'.app_table = some a' ∧ a'.conf = cf ∧
        s.nextId ≤ a'.instId ∧ a'.instId ≠ a.instId)) ∧
    (∀ sp l, lookupA sp s.link_table = some l → sp ∈ c.links →
      lookupA sp s'.link_table = some l) := by
  obtain ⟨s1, s2, s4, inh, exh, h1, h2, h4, hcp, hs'⟩ := configure_decomp h
  obtain ⟨p1a, p1b, p1c, p1d, p1e, p1f⟩ := removeDeadLinks_spec hlnd h1
  have hknd1 : (keysA s1.app_table).Nodup := by
    rw [p1d]
    exact hknd
  obtain ⟨p2a, p2b, p2c, p2d, p2e⟩ := stopPhase_spec hknd1 h2
  obtain ⟨s3b1, s3b2, s3b3, s3b4, s3b5, s3b6, s3b7⟩ := startFold c.apps s2 hcnd
  obtain ⟨p4a, p4b, p4c, p4d, p4e, p4f, p4g, p4h⟩ := rebuildFold c.links (startPhase s2 c) s4 h4
  have happ' : s'.app_table = s4.app_table := by
    rw [hs']
  have hlt' : s'.link_table = s4.link_table := by
    rw [hs']
  refine ⟨?_, ?_, ?_, ?_⟩
  · intro n a cf hsa hcf hid
    obtain ⟨a1, ha1, hai, hac⟩ := metaView_some_elim (p1c n) hsa
    have hk : KeepC c n a1 := ⟨cf, hcf, by rw [hac]; exact hid⟩
    obtain ⟨hs2, hev⟩ := (p2a n a1 ha1).1 hk
    have hs3 := s3b1 n a1 hs2
    obtain ⟨a', ha', hai', hac'⟩ := metaView_some_elim (p4a n) hs3
    refine ⟨⟨a', ?_, ?_, ?_⟩, hev⟩
    · rw [happ']
      exact ha'
    · rw [hai', hai]
    · rw [hac', hac]
  · intro n a hsa hcn
    obtain ⟨a1, ha1, hai, hac⟩ := metaView_some_elim (p1c n) hsa
    have hnk : ¬ KeepC c n a1 := by
      rintro ⟨cf, hcf, _⟩
      rw [hcn] at hcf
      cases hcf
    obtain ⟨hs2, hev⟩ := (p2a n a1 ha1).2 hnk
    have hs3 : lookupA n (startPhase s2 c).app_table = none := by
      rw [show startPhase s2 c = c.apps.foldl startStep s2 from rfl, s3b2 n hcn]
      exact hs2
    constructor
    · rw [happ']
      rw [lookupA_eq_none_iff] at hs3 ⊢
      rw [p4b]
      exact hs3
    · rw [hac] at hev
      exact hev
  · intro n a cf hsa hcf hneq
    obtain ⟨a1, ha1, hai, hac⟩ := metaView_some_elim (p1c n) hsa
    have hnk : ¬ KeepC c n a1 := by
      rintro ⟨cf2, hcf2, hid2⟩
      rw [hcf] at hcf2
      cases hcf2
      rw [hac] at hid2
      exact hneq hid2
    obtain ⟨hs2, hev⟩ := (p2a n a1 ha1).2 hnk
    rw [hac] at hev
    obtain ⟨id, hid3, hle⟩ := s3b3 n cf hcf hs2
    obtain ⟨a', ha', hai', hac'⟩ := metaView_some_elim (p4a n) hid3
    have hina : a'.instId = id := hai'
    have hinc : a'.conf = cf := hac'
    have hsid : s.nextId ≤ id := by
      rw [p2d, p1e] at hle
      exact hle
    refine ⟨hev, a', ?_, hinc, ?_, ?_⟩
    · rw [happ']
      exact ha'
    · rw [hina]
      exact hsid
    · rw [hina]
      have hlt2 := hidb (n, a) (lookupA_mem hsa)
      intro he
      rw [he] at hsid
      exact absurd (lt_of_lt_of_le hlt2 hsid) (lt_irrefl _)
  · intro sp l hsl hmem
    have h1l : lookupA sp s1.link_table = some l := by
      rw [p1a sp hmem]
      exact hsl
    have h2l : lookupA sp s2.link_table = some l := by
      rw [p2c]
      exact h1l
    have h3l : lookupA sp (startPhase s2 c).link_table = some l := by
      rw [show startPhase s2 c = c.apps.foldl startStep s2 from rfl, s3b4]
      exact h2l
    rw [hlt', p4d sp (by rw [h3l]; rfl), h3l]

/-! ## C1: loss_rate -/

/-- C1 counterexample: the claim states `loss_rate(d, 0) == 100` when
`d > 0`, but the code's `sent == 0` guard returns 0 there:
`loss_rate 1 0 = 0`. -/
theorem c1_loss_rate_counterexample : loss_rate 1 0 = 0 ∧ loss_rate 1 0 ≠ 100 := by
  constructor <;> decide

/-- C1 (amended): `loss_rate(0, n) = 0`; `loss_rate(d, 0) = 0` for all
`d` (the early `sent == 0` guard fires regardless of `drop`); and for
`sent ≠ 0` the general case `d·100/(d+n)` with integer division. -/
theorem c1_loss_rate_amended (d n : Nat) :
    loss_rate 0 n = 0 ∧ loss_rate d 0 = 0 ∧ (n ≠ 0 → loss_rate d n = d * 100 / (d + n)) := by
  refine ⟨?_, ?_, ?_⟩
  · unfold loss_rate
    split <;> simp
  · simp [loss_rate]
  · intro hn
    simp [loss_rate, hn]

/-- C1 witness: the amended theorem evaluated at `d = 1`, `n = 3`. -/
theorem c1_loss_rate_amended_witness :
    loss_rate 0 3 = 0 ∧ loss_rate 1 0 = 0 ∧ loss_rate 1 3 = 1 * 100 / (1 + 3) := by
  have h := c1_loss_rate_amended 1 3
  exact ⟨h.1, h.2.1, h.2.2 (by decide)⟩

/-! ## C2: pace_breathing -/

/-- C2: pacing invariants (engine.rs:158-168).  Starting from a sleep
level within `MAXSLEEP` the new level stays within `MAXSLEEP`; an idle
breath (frees counter unchanged) bumps the level by exactly one, capped
at `MAXSLEEP`, and sleeps that many microseconds; a breath that freed at
least one packet halves the level and does not sleep. -/
theorem c2_pace_breathing_invariants (e : Engine) (hs : e.sleep ≤ MAXSLEEP) :
    (pace_breathing e).1.sleep ≤ MAXSLEEP ∧
    (e.lastfrees = e.stats.frees →
      (pace_breathing e).1.sleep = min (e.sleep + 1) MAXSLEEP ∧
      (pace_breathing e).2 = some (min (e.sleep + 1) MAXSLEEP)) ∧
    (e.lastfrees < e.stats.frees →
      (pace_breathing e).1.sleep = e.sleep / 2 ∧ (pace_breathing e).2 = none) := by
  by_cases h : e.lastfrees = e.stats.frees
  · have hp : pace_breathing e =
        ({ e with sleep := min (e.sleep + 1) MAXSLEEP, lastfrees := e.stats.frees },
          some (min (e.sleep + 1) MAXSLEEP)) := by
      unfold pace_breathing
      rw [if_pos h]
    rw [hp]
    exact ⟨min_le_right _ _, fun _ => ⟨rfl, rfl⟩, fun hlt => absurd h (Nat.ne_of_lt hlt)⟩
  · have hp : pace_breathing e =
        ({ e with sleep := e.sleep / 2, lastfrees := e.stats.frees }, none) := by
      unfold pace_breathing
      rw [if_neg h]
    rw [hp]
    exact ⟨le_trans (Nat.div_le_self _ _) hs, fun heq => absurd heq h, fun _ => ⟨rfl, rfl⟩⟩

/-- C2 witness: the invariants applied at a concrete idle engine at the
cap and at a concrete busy engine. -/
theorem c2_pace_breathing_witness :
    (pace_breathing ⟨⟨7, 5, 0, 0⟩, ⟨[], [], [], [], 0⟩, 5, 100⟩).1.sleep = min (100 + 1) MAXSLEEP ∧
    (pace_breathing ⟨⟨7, 9, 0, 0⟩, ⟨[], [], [], [], 0⟩, 5, 40⟩).1.sleep = 40 / 2 ∧
    (pace_breathing ⟨⟨7, 9, 0, 0⟩, ⟨[], [], [], [], 0⟩, 5, 40⟩).2 = none := by
  refine ⟨((c2_pace_breathing_invariants _ (by decide)).2.1 rfl).1, ?_, ?_⟩
  · exact ((c2_pace_breathing_invariants _ (by decide)).2.2 (by decide)).1
  · exact ((c2_pace_breathing_invariants _ (by decide)).2.2 (by decide)).2

/-! ## C3: planner determinism (code bug) -/

/-- C3: the planner is *not* stable under reruns.  The two states hold
equal registries (identical app tables; link tables equal as sets — a
permutation, as two runs of the hash map may enumerate them), yet the
computed exhale sequences differ: `[b, z, c]` versus `[z, b, c]`.  This
contradicts the code's own comment ("is deterministic with regard to the
configuration", engine.rs:409). -/
theorem c3_planner_nondeterminism :
    cexStateA.app_table = cexStateB.app_table ∧
    cexStateA.link_table.Perm cexStateB.link_table ∧
    (compute_breathe_order cexStateA).map EngineState.inhale =
      (compute_breathe_order cexStateB).map EngineState.inhale ∧
    (compute_breathe_order cexStateA).map EngineState.exhale = some ["b", "z", "c"] ∧
    (compute_breathe_order cexStateB).map EngineState.exhale = some ["z", "b", "c"] ∧
    (compute_breathe_order cexStateA).map EngineState.exhale ≠
      (compute_breathe_order cexStateB).map EngineState.exhale := by
  refine ⟨rfl, by decide, rfl, rfl, rfl, by decide⟩

/-! ## C4: topological order on acyclic graphs (code bug) -/

/-- C4: on the acyclic graph `i→b, i→c, i→z, z→b, b→c` (witnessed acyclic
by the topological numbering `cexRank`), the planner emits
`exhale = [b, z, c]`: the edge `z → b` has both endpoints in `exhale`
but `z` does not precede `b`. -/
theorem c4_topological_order_bug :
    ((linkEdges (cexStateA.link_table.map Prod.fst)).all
      fun eg => decide (cexRank eg.1 < cexRank eg.2)) = true ∧
    (⟨"z", "o", "b", "in2"⟩ : LinkSpec) ∈ cexStateA.link_table.map Prod.fst ∧
    (compute_breathe_order cexStateA).map EngineState.exhale = some ["b", "z", "c"] ∧
    "z" ∈ ["b", "z", "c"] ∧ "b" ∈ ["b", "z", "c"] ∧
    ¬ precedesIn "z" "b" ["b", "z", "c"] := by
  refine ⟨by decide, by decide, rfl, by decide, by decide, ?_⟩
  intro h
  exact absurd h.2.2 (by decide)

/-! ## C5 counterexample: the inhale/exhale union is not duplicate-free -/

/-- C5 counterexample: with `i1` (pull) feeding `a` (pull and push), the
planner puts `a` both in `inhale` and in `exhale`, so the union of the
two sequences contains the name `a` twice. -/
theorem c5_union_counterexample :
    (compute_breathe_order cexState5).map EngineState.inhale = some ["a", "i1"] ∧
    (compute_breathe_order cexState5).map EngineState.exhale = some ["a"] ∧
    (["a", "i1"] ++ ["a"]).count "a" = 2 := by
  refine ⟨rfl, rfl, by decide⟩

/-! ## C8 and C9: the main loop -/

/-- `pace_breathing` does not touch the stats. -/
theorem pace_breathing_stats (e : Engine) : (pace_breathing e).1.stats = e.stats := by
  unfold pace_breathing
  split <;> rfl

/-- A successful breath increments `stats.breaths` by one. -/
theorem breathe_breaths {e e' : Engine} (h : breathe e = some e') :
    e'.stats.breaths = e.stats.breaths + 1 := by
  unfold breathe at h
  split at h
  · cases h
    rfl
  · cases h

/-- The breathe loop never decreases the breath counter. -/
theorem mainLoop_breaths_le (dn : Option (Nat → Bool)) :
    ∀ fuel k e e', mainLoop dn fuel k e = some e' →
      e.stats.breaths ≤ e'.stats.breaths := by
  intro fuel
  induction fuel with
  | zero => intro k e e' h; cases h
  | succ fuel ih =>
    intro k e e' h
    unfold mainLoop at h
    cases dn with
    | some d =>
      by_cases hd : d k
      · simp only [hd, if_pos] at h
        cases h
        exact le_refl _
      · simp only [hd] at h
        simp at h
        cases hb : breathe (pace_breathing e).1 with
        | none => rw [hb] at h; cases h
        | some e2 =>
          rw [hb] at h
          have h1 := breathe_breaths hb
          have h2 := ih (k + 1) e2 e' h
          rw [pace_breathing_stats] at h1
          omega
    | none =>
      cases hb : breathe (pace_breathing e).1 with
      | none => rw [hb] at h; cases h
      | some e2 =>
        rw [hb] at h
        have h1 := breathe_breaths hb
        have h2 := ih (k + 1) e2 e' h
        rw [pace_breathing_stats] at h1
        omega

/-- C8: the first breath runs unconditionally before `done` is consulted:
whenever `main` returns (any options, any done predicate, any clock), the
breath counter has grown by at least one. -/
theorem c8_first_breath (clk : Nat → Nat) (e : Engine) (opts : Options) (fuel : Nat)
    (e' : Engine) (h : main clk e opts fuel = some e') :
    e.stats.breaths + 1 ≤ e'.stats.breaths := by
  unfold main at h
  rcases hdu : opts.duration with _ | d <;> rcases hdn : opts.done with _ | f <;>
      rw [hdu, hdn] at h
  · cases hb : breathe e with
    | none => rw [hb] at h; cases h
    | some e1 =>
      rw [hb] at h
      have h1 := breathe_breaths hb
      have h2 := mainLoop_breaths_le none fuel 1 e1 e' h
      omega
  · cases hb : breathe e with
    | none => rw [hb] at h; cases h
    | some e1 =>
      rw [hb] at h
      have h1 := breathe_breaths hb
      have h2 := mainLoop_breaths_le (some f) fuel 1 e1 e' h
      omega
  · cases hb : breathe e with
    | none => rw [hb] at h; cases h
    | some e1 =>
      rw [hb] at h
      have h1 := breathe_breaths hb
      have h2 := mainLoop_breaths_le (some (timeout clk d)) fuel 1 e1 e' h
      omega
  · cases h

/-- C8 witness: a concrete zero-length run (done predicate constantly
true) on a fresh engine still performs one breath. -/
theorem c8_first_breath_witness :
    main (fun _ => 0) ⟨⟨0, 0, 0, 0⟩, ⟨[], [], [], [], 0⟩, 0, 0⟩
        ⟨some (fun _ => true), none, false, false, false, false⟩ 1 =
      some ⟨⟨1, 0, 0, 0⟩, ⟨[], [], [], [], 0⟩, 0, 0⟩ ∧
    (0 : Nat) + 1 ≤ (1 : Nat) := by
  refine ⟨rfl, ?_⟩
  have h := c8_first_breath (fun _ => 0) ⟨⟨0, 0, 0, 0⟩, ⟨[], [], [], [], 0⟩, 0, 0⟩
    ⟨some (fun _ => true), none, false, false, false, false⟩ 1
    ⟨⟨1, 0, 0, 0⟩, ⟨[], [], [], [], 0⟩, 0, 0⟩ rfl
  exact h

/-- C9: setting both `done` and `duration` trips the `assert!` — `main`
aborts before any breath; setting only `duration` behaves exactly as
setting `done` to the timeout predicate for that duration. -/
theorem c9_duration_done (clk : Nat → Nat) (e : Engine) (fuel d : Nat)
    (f : Nat → Bool) (r1 r2 r3 r4 : Bool) :
    main clk e ⟨some f, some d, r1, r2, r3, r4⟩ fuel = none ∧
    main clk e ⟨none, some d, r1, r2, r3, r4⟩ fuel =
      main clk e ⟨some (timeout clk d), none, r1, r2, r3, r4⟩ fuel :=
  ⟨rfl, rfl⟩


/-! ## C5 (amended) and C10 -/

/-- C5 (amended): after `compute_breathe_order` runs on any registry
state (with duplicate-free app names, as a `HashMap` guarantees),
`inhale` is sorted in the name order used by `Vec::sort`, contains
exactly the pull-capable apps, and has no duplicates; `exhale` has no
duplicates.  (An app advertising both pull and push may appear in both
lists, so only the two lists individually are duplicate-free.) -/
theorem c5_planner_lists_amended (s s' : EngineState)
    (hnd : (keysA s.app_table).Nodup)
    (h : compute_breathe_order s = some s') :
    List.Sorted sleR s'.inhale ∧
    (∀ n, n ∈ s'.inhale ↔ ∃ a, (n, a) ∈ s.app_table ∧ a.conf.has_pull = true) ∧
    s'.inhale.Nodup ∧
    s'.exhale.Nodup := by
  unfold compute_breathe_order at h
  cases hc : computePair s.link_table s.app_table with
  | none => rw [hc] at h; cases h
  | some p =>
    rw [hc] at h
    obtain ⟨inh, exh⟩ := p
    cases h
    obtain ⟨hinh, hexnd, _, _⟩ := computePair_spec hc
    subst hinh
    exact ⟨(computeInhale_spec s.app_table).1, (computeInhale_spec s.app_table).2.1,
      (computeInhale_spec s.app_table).2.2.1 hnd, hexnd⟩

/-- C5 witness: the amended theorem applied to the concrete two-app
state `cexState5` (planner output `inhale = [a, i1]`, `exhale = [a]`). -/
theorem c5_planner_lists_witness :
    List.Sorted sleR ["a", "i1"] ∧ (["a", "i1"] : List String).Nodup ∧
    (["a"] : List String).Nodup := by
  have h := c5_planner_lists_amended cexState5
    ⟨[(⟨"i1", "o", "a", "in"⟩, ⟨0, 0, 0⟩)],
     [("i1", ⟨0, ⟨"pull", true, false, false⟩, [], []⟩),
      ("a", ⟨0, ⟨"pp", true, true, false⟩, [], []⟩)],
     ["a", "i1"], ["a"], 0⟩ (by decide) rfl
  exact ⟨h.1, h.2.2.1, h.2.2.2⟩

/-- `breathe` succeeds as soon as every scheduled name resolves. -/
theorem breathe_isSome_of_resolvable {e : Engine}
    (hi : ∀ n ∈ e.state.inhale, (lookupA n e.state.app_table).isSome)
    (he : ∀ n ∈ e.state.exhale, (lookupA n e.state.app_table).isSome) :
    (breathe e).isSome := by
  unfold breathe
  rw [if_pos]
  · rfl
  · rw [Bool.and_eq_true]
    exact ⟨List.all_eq_true.mpr hi, List.all_eq_true.mpr he⟩

/-- C10: after any successful `configure`, every name in the computed
`inhale` and `exhale` sequences is a key of the app table, so the
lookups `breathe` performs cannot fail (its unwrap branches are
unreachable): `breathe` succeeds on the configured state whatever the
engine counters are. -/
theorem c10_breathe_lookups (s : EngineState) (c : Config) (s' : EngineState)
    (ev : List (String × Bool)) (h : configure s c = some (s', ev)) :
    (∀ n, n ∈ s'.inhale ∨ n ∈ s'.exhale → (lookupA n s'.app_table).isSome) ∧
    (∀ (st : EngineStats) (lf sl : Nat), (breathe ⟨st, s', lf, sl⟩).isSome) := by
  unfold configure at h
  cases h1 : removeDeadLinks s c with
  | none => rw [h1] at h; cases h
  | some s1 =>
    rw [h1] at h
    simp only at h
    cases h2 : stopPhase s1 c with
    | none => rw [h2] at h; cases h
    | some p2 =>
      rw [h2] at h
      simp only at h
      cases h4 : rebuildLinks (startPhase p2.1 c) c with
      | none => rw [h4] at h; cases h
      | some s4 =>
        rw [h4] at h
        simp only at h
        cases h5 : compute_breathe_order s4 with
        | none => rw [h5] at h; cases h
        | some s5 =>
          rw [h5] at h
          cases h
          unfold compute_breathe_order at h5
          cases hc : computePair s4.link_table s4.app_table with
          | none => rw [hc] at h5; cases h5
          | some p =>
            rw [hc] at h5
            obtain ⟨inh, exh⟩ := p
            cases h5
            obtain ⟨_, _, hinhsm, hexhsm⟩ := computePair_spec hc
            have hmem : ∀ n, n ∈ inh ∨ n ∈ exh →
                (lookupA n s4.app_table).isSome := by
              intro n hn
              rcases hn with hn | hn
              · exact hinhsm n hn
              · exact hexhsm n hn
            refine ⟨hmem, ?_⟩
            intro st lf sl
            exact breathe_isSome_of_resolvable
              (fun n hn => hinhsm n hn) (fun n hn => hexhsm n hn)

/-- The state left by `configure` on the empty engine for the
counterexample configuration (apps `i b c z`, links `cexLinksA`). -/
def c10State : EngineState :=
  ⟨[(⟨"i", "o1", "b", "in1"⟩, ⟨0, 0, 0⟩),
    (⟨"i", "o2", "c", "in1"⟩, ⟨0, 0, 0⟩),
    (⟨"i", "o3", "z", "in1"⟩, ⟨0, 0, 0⟩),
    (⟨"z", "o", "b", "in2"⟩, ⟨0, 0, 0⟩),
    (⟨"b", "o", "c", "in2"⟩, ⟨0, 0, 0⟩)],
   [("i", ⟨0, ⟨"pull", true, false, false⟩, [],
      [("o1", ⟨"i", "o1", "b", "in1"⟩), ("o2", ⟨"i", "o2", "c", "in1"⟩),
       ("o3", ⟨"i", "o3", "z", "in1"⟩)]⟩),
    ("b", ⟨1, ⟨"b", false, true, false⟩,
      [("in1", ⟨"i", "o1", "b", "in1"⟩), ("in2", ⟨"z", "o", "b", "in2"⟩)],
      [("o", ⟨"b", "o", "c", "in2"⟩)]⟩),
    ("c", ⟨2, ⟨"c", false, true, false⟩,
      [("in1", ⟨"i", "o2", "c", "in1"⟩), ("in2", ⟨"b", "o", "c", "in2"⟩)], []⟩),
    ("z", ⟨3, ⟨"z", false, true, false⟩,
      [("in1", ⟨"i", "o3", "z", "in1"⟩)], [("o", ⟨"z", "o", "b", "in2"⟩)]⟩)],
   ["i"], ["b", "z", "c"], 4⟩

/-- C10 witness: the theorem applied to a concrete configure run. -/
theorem c10_breathe_lookups_witness :
    (lookupA "z" c10State.app_table).isSome ∧
    (breathe ⟨⟨0, 0, 0, 0⟩, c10State, 0, 0⟩).isSome := by
  have h := c10_breathe_lookups ⟨[], [], [], [], 0⟩ ⟨cexApps, cexLinksA⟩ c10State [] rfl
  exact ⟨h.1 "z" (Or.inr (by decide)), h.2 ⟨0, 0, 0, 0⟩ 0 0⟩


/-- Old engine state for the C6/C7 witnesses: apps `a` (identity a1),
`b` (identity b1), `d` (identity d1), one link `a.o -> b.i` with live
counters. -/
def witOld : EngineState :=
  ⟨[(⟨"a", "o", "b", "i"⟩, ⟨5, 2, 0⟩)],
   [("a", ⟨0, ⟨"a1", true, false, true⟩, [], [("o", ⟨"a", "o", "b", "i"⟩)]⟩),
    ("b", ⟨1, ⟨"b1", false, true, false⟩, [("i", ⟨"a", "o", "b", "i"⟩)], []⟩),
    ("d", ⟨2, ⟨"d1", false, true, true⟩, [], []⟩)],
   [], [], 3⟩

/-- Desired configuration for the C6/C7 witnesses: `a` changes identity
(a1 to a2), `b` is unchanged, `d` disappears; the link stays. -/
def witCfg : Config :=
  ⟨[("a", ⟨"a2", true, false, true⟩), ("b", ⟨"b1", false, true, false⟩)],
   [⟨"a", "o", "b", "i"⟩]⟩

/-- The state `configure witOld witCfg` leaves behind. -/
def witNew : EngineState :=
  ⟨[(⟨"a", "o", "b", "i"⟩, ⟨5, 2, 0⟩)],
   [("b", ⟨1, ⟨"b1", false, true, false⟩, [("i", ⟨"a", "o", "b", "i"⟩)], []⟩),
    ("a", ⟨3, ⟨"a2", true, false, true⟩, [], [("o", ⟨"a", "o", "b", "i"⟩)]⟩)],
   ["a"], ["b"], 4⟩

/-- C6 witness: the reconfiguration semantics applied to the concrete
run `configure witOld witCfg`: the unchanged `b` is never stopped; the
changed `a` and the removed `d` are stopped with their stop hooks
invoked; the surviving link keeps its counters. -/
theorem c6_configure_semantics_witness :
    ("b", true) ∉ [("a", true), ("d", true)] ∧
    ("b", false) ∉ [("a", true), ("d", true)] ∧
    ("a", true) ∈ [("a", true), ("d", true)] ∧
    ("d", true) ∈ [("a", true), ("d", true)] ∧
    lookupA (⟨"a", "o", "b", "i"⟩ : LinkSpec) witNew.link_table = some ⟨5, 2, 0⟩ := by
  have h := c6_configure_semantics witOld witCfg witNew [("a", true), ("d", true)]
    (by decide) (by decide) (by decide) (by decide) rfl
  refine ⟨?_, ?_, ?_, ?_, ?_⟩
  · exact (h.1 "b" ⟨1, ⟨"b1", false, true, false⟩, [("i", ⟨"a", "o", "b", "i"⟩)], []⟩
      ⟨"b1", false, true, false⟩ rfl rfl rfl).2 true
  · exact (h.1 "b" ⟨1, ⟨"b1", false, true, false⟩, [("i", ⟨"a", "o", "b", "i"⟩)], []⟩
      ⟨"b1", false, true, false⟩ rfl rfl rfl).2 false
  · exact (h.2.2.1 "a" ⟨0, ⟨"a1", true, false, true⟩, [], [("o", ⟨"a", "o", "b", "i"⟩)]⟩
      ⟨"a2", true, false, true⟩ rfl rfl (by decide)).1
  · exact (h.2.1 "d" ⟨2, ⟨"d1", false, true, true⟩, [], []⟩ rfl rfl).2
  · exact h.2.2.2 ⟨"a", "o", "b", "i"⟩ ⟨5, 2, 0⟩ rfl (by decide)


/-! ## No-op lemmas for idempotent reconfiguration (C7) -/

theorem foldOpt_pure {σ α : Type} {f : σ → α → Option σ} {s : σ} :
    ∀ l : List α, (∀ a ∈ l, f s a = some s) → foldOpt f s l = some s := by
  intro l
  induction l with
  | nil => intro _; rfl
  | cons a l ih =>
    intro hall
    unfold foldOpt
    rw [hall a (List.mem_cons_self _ _)]
    exact ih (fun a ha => hall a (List.mem_cons_of_mem _ ha))

theorem foldl_pure {σ α : Type} {g : σ → α → σ} {s : σ} :
    ∀ l : List α, (∀ a ∈ l, g s a = s) → l.foldl g s = s := by
  intro l
  induction l with
  | nil => intro _; rfl
  | cons a l ih =>
    intro hall
    rw [List.foldl_cons, hall a (List.mem_cons_self _ _)]
    exact ih (fun a ha => hall a (List.mem_cons_of_mem _ ha))

theorem rebuildFold_notmem :
    ∀ (specs : List LinkSpec) (s0 s4 : EngineState),
      foldOpt link_apps s0 specs = some s4 →
      ∀ sp', sp' ∉ specs → lookupA sp' s4.link_table = lookupA sp' s0.link_table := by
  intro specs
  induction specs with
  | nil =>
    intro s0 s4 h sp' _
    cases h
    rfl
  | cons sp1 specs ih =>
    intro s0 s4 h sp' hsp'
    unfold foldOpt at h
    cases hl : link_apps s0 sp1 with
    | none => rw [hl] at h; cases h
    | some s0' =>
      rw [hl] at h
      simp only at h
      have hne : sp' ≠ sp1 := fun he => hsp' (he ▸ List.mem_cons_self _ _)
      obtain ⟨_, _, _, _, _, _, _, _, hnep, _, _⟩ := link_apps_spec hl
      rw [ih s0' s4 h sp' (fun hin => hsp' (List.mem_cons_of_mem _ hin)), hnep sp' hne]

/-- When a link is already registered and both its slots already hold
the binding, `link_apps` leaves the state untouched. -/
theorem link_apps_noop {s : EngineState} {sp : LinkSpec}
    (hl : (lookupA sp s.link_table).isSome)
    (hbo : ∃ a, lookupA sp.from_ s.app_table = some a ∧
      lookupA sp.output a.output = some sp)
    (hbi : ∃ a, lookupA sp.to_ s.app_table = some a ∧
      lookupA sp.input a.input = some sp) :
    link_apps s sp = some s := by
  obtain ⟨a, hla, hba⟩ := hbo
  obtain ⟨a2, hla2, hba2⟩ := hbi
  unfold link_apps
  rw [hla]
  simp only
  have hy : ({ a with output := insertA sp.output sp a.output } : AppState) = a := by
    rw [insertA_self_eq hba]
  rw [hy, insertA_self_eq hla, hla2]
  simp only
  have hy2 : ({ a2 with input := insertA sp.input sp a2.input } : AppState) = a2 := by
    rw [insertA_self_eq hba2]
  rw [hy2, insertA_self_eq hla2]
  cases hsp : lookupA sp s.link_table with
  | none =>
    rw [hsp] at hl
    cases hl
  | some l => simp only


/-- C7: reconfiguration is idempotent.  For a well-formed engine state
and a well-formed configuration (unique app names, unique links, no two
links binding the same slot — the spec's duplicate-slot error case),
running `configure` again with the configuration that produced the
current state changes nothing: same app set, link set, slot bindings and
inhale/exhale order, and no app is stopped. -/
theorem c7_configure_idempotent (s : EngineState) (c : Config) (s1 : EngineState)
    (ev : List (String × Bool))
    (hknd : (keysA s.app_table).Nodup) (hlnd : (keysA s.link_table).Nodup)
    (hcnd : (keysA c.apps).Nodup) (hslots : NoDupSlots c.links)
    (h : configure s c = some (s1, ev)) :
    configure s1 c = some (s1, []) := by
  obtain ⟨sd, s2, s4, inh, exh, h1, h2, h4, hcp, hs1⟩ := configure_decomp h
  obtain ⟨p1a, p1b, p1c, p1d, p1e, p1f⟩ := removeDeadLinks_spec hlnd h1
  have hknd1 : (keysA sd.app_table).Nodup := by
    rw [p1d]
    exact hknd
  obtain ⟨p2a, p2b, p2c, p2d, p2e⟩ := stopPhase_spec hknd1 h2
  obtain ⟨s3b1, s3b2, s3b3, s3b4, s3b5, s3b6, s3b7⟩ := startFold c.apps s2 hcnd
  obtain ⟨p4a, p4b, p4c, p4d, p4e, p4f, p4g, p4h⟩ :=
    rebuildFold c.links (startPhase s2 c) s4 h4
  have happT : s1.app_table = s4.app_table := by
    rw [hs1]
  have hlT : s1.link_table = s4.link_table := by
    rw [hs1]
  have hF1 : ∀ sp, sp ∈ keysA s1.link_table → sp ∈ c.links := by
    intro sp hsp
    by_contra hc0
    have hnone : lookupA sp s4.link_table = none := by
      rw [rebuildFold_notmem c.links (startPhase s2 c) s4 h4 sp hc0]
      have h3lt : (startPhase s2 c).link_table = s2.link_table := s3b4
      rw [h3lt, p2c]
      exact p1b sp hc0
    rw [hlT] at hsp
    exact (lookupA_eq_none_iff.mp hnone) hsp
  have hF2 : ∀ n a, lookupA n s1.app_table = some a →
      ∃ cf, lookupA n c.apps = some cf ∧ a.conf.identity = cf.identity := by
    intro n a ha
    rw [happT] at ha
    obtain ⟨a3, ha3, hai3, hac3⟩ := metaView_some_elim (p4a n).symm ha
    rcases s3b7 n a3 ha3 with h2e | ⟨cf, id, hcf, hae⟩
    · cases hsd : lookupA n sd.app_table with
      | none =>
        rw [p2b n hsd] at h2e
        cases h2e
      | some ad =>
        have hp := p2a n ad hsd
        by_cases hk : KeepC c n ad
        · obtain ⟨hs2e, _⟩ := hp.1 hk
          have had : a3 = ad := by
            rw [h2e] at hs2e
            exact Option.some.inj hs2e
          obtain ⟨cf, hcf, hid⟩ := hk
          refine ⟨cf, hcf, ?_⟩
          rw [← hac3, had]
          exact hid
        · obtain ⟨hs2none, _⟩ := hp.2 hk
          rw [h2e] at hs2none
          cases hs2none
    · refine ⟨cf, hcf, ?_⟩
      rw [← hac3, hae]
  have hF3 : ∀ p ∈ c.apps, (lookupA p.1 s1.app_table).isSome := by
    intro p hp
    rw [happT]
    cases h2e : lookupA p.1 s2.app_table with
    | some a2 =>
      have h3e := s3b1 p.1 a2 h2e
      obtain ⟨a4, ha4, _, _⟩ := metaView_some_elim (p4a p.1) h3e
      rw [ha4]
      rfl
    | none =>
      have hcf : (lookupA p.1 c.apps).isSome :=
        lookupA_isSome_of_mem_keys (List.mem_map_of_mem Prod.fst hp)
      cases hcf2 : lookupA p.1 c.apps with
      | none =>
        rw [hcf2] at hcf
        cases hcf
      | some cf =>
        obtain ⟨id, hid3, _⟩ := s3b3 p.1 cf hcf2 h2e
        obtain ⟨a4, ha4, _, _⟩ := metaView_some_elim (p4a p.1) hid3
        rw [ha4]
        rfl
  have stepA : removeDeadLinks s1 c = some s1 := by
    unfold removeDeadLinks
    refine foldOpt_pure _ ?_
    intro sp hsp
    unfold removeDeadStep
    rw [if_pos (hF1 sp hsp)]
  have stepB : stopPhase s1 c = some (s1, []) := by
    unfold stopPhase
    refine foldOpt_pure _ ?_
    intro nm hnm
    unfold stopStep
    dsimp only
    have hsome : (lookupA nm s1.app_table).isSome := lookupA_isSome_of_mem_keys hnm
    cases ha : lookupA nm s1.app_table with
    | none =>
      rw [ha] at hsome
      cases hsome
    | some a =>
      obtain ⟨cf, hcf, hid⟩ := hF2 nm a ha
      simp only
      rw [hcf]
      simp only
      rw [if_pos hid]
  have stepC : startPhase s1 c = s1 := by
    unfold startPhase
    refine foldl_pure _ ?_
    intro p hp
    unfold startStep
    rw [if_pos (hF3 p hp)]
  have stepD : rebuildLinks s1 c = some s1 := by
    unfold rebuildLinks
    refine foldOpt_pure _ ?_
    intro sp hsp
    refine link_apps_noop ?_ ?_ ?_
    · rw [hlT]
      exact p4e sp hsp
    · rw [happT]
      exact (p4h hslots sp hsp).1
    · rw [happT]
      exact (p4h hslots sp hsp).2
  have stepE : compute_breathe_order s1 = some s1 := by
    unfold compute_breathe_order
    have hcp1 : computePair s1.link_table s1.app_table = some (inh, exh) := by
      rw [hlT, happT]
      exact hcp
    rw [hcp1]
    simp only
    rw [hs1]
  unfold configure
  rw [stepA]
  simp only
  rw [stepB]
  simp only
  rw [stepC, stepD]
  simp only
  rw [stepE]


/-- C7 witness: idempotence applied to the concrete run
`configure witOld witCfg = some (witNew, ..)`: configuring again with
the same desired configuration returns the state unchanged and stops
nothing. -/
theorem c7_configure_idempotent_witness :
    configure witNew witCfg = some (witNew, []) :=
  c7_configure_idempotent witOld witCfg witNew [("a", true), ("d", true)]
    (by decide) (by decide) (by decide) (by decide) rfl

end Rush
